import Mathlib

/-!
Verification of the dashed-line tracer (`src/lib/index.ts`) against its
natural-language specification.  The library is embedded shallowly over `ℚ`:
`Math.sqrt` is modelled by `Rat.sqrt` (exact on perfect rational squares,
which covers every axis-aligned geometry used in the theorems),
`cos(atan2(dy,dx))` / `sin(atan2(dy,dx))` by `dx/length` / `dy/length`,
JavaScript `%` (fmod) by `jsMod`, and the `while` loop of the vector segment
emitter by a fuel-indexed recursion whose `Bool` component records whether
the loop ran to completion within the given fuel.
-/

namespace DashedLine

/-- Truncation toward zero, as JavaScript division underlying `%` does. -/
def jsTrunc (q : ℚ) : ℤ := if 0 ≤ q then ⌊q⌋ else ⌈q⌉

/-- JavaScript `a % b` (floating remainder, sign of the dividend) on `ℚ`. -/
def jsMod (a b : ℚ) : ℚ := a - b * jsTrunc (a / b)

/-- `DashLine.distance` (src/lib/index.ts lines 136-143):
`Math.sqrt((x2-x1)^2 + (y2-y1)^2)`. -/
def distQ (x1 y1 x2 y2 : ℚ) : ℚ := Rat.sqrt ((x2 - x1) ^ 2 + (y2 - y1) ^ 2)

/-- Primitive calls issued to the underlying `Graphics` drawing surface.
`strokeTex` records the stroke-matrix update performed by
`adjustStrokeStyle` (rotation as the direction cosine/sine, the uniform
scale, and the translation components). -/
inductive GCall where
  | moveTo (x y : ℚ)
  | lineTo (x y : ℚ)
  | closePath
  | strokeTex (c s scale tx ty : ℚ)
deriving DecidableEq, Repr

/-- Mutable tracer state (`lineLength`, `cursor`, `start` fields of the
`DashLine` class). -/
structure DLState where
  lineLength : ℚ
  cx : ℚ
  cy : ℚ
  startx : ℚ
  starty : ℚ
deriving DecidableEq, Repr

/-- Resolved configuration of a tracer: the dash pattern, the period
`dashSize` computed by the constructor, the scale, the phase offset and the
mode selector. -/
structure DLConfig where
  dash : List ℚ
  dashSize : ℚ
  scale : ℚ
  offset : ℚ
  useTexture : Bool
deriving DecidableEq, Repr

/-- `this.dash.reduce((a, b) => a + b)` — JavaScript `reduce` without an
initial value throws `TypeError` on an empty array. -/
def reduceSum : List ℚ → Except String ℚ
  | [] => Except.error "Reduce of empty array with no initial value"
  | a :: rest => Except.ok (rest.foldl (· + ·) a)

/-- The `DashLine` constructor (lines 94-106): merges options and computes
`dashSize`.  The only synchronous failure point is the `reduce` over the
dash array. -/
def construct (dash : List ℚ) (scale offset : ℚ) (useTexture : Bool) :
    Except String DLConfig :=
  (reduceSum dash).map fun dashSize =>
    { dash := dash, dashSize := dashSize, scale := scale, offset := offset,
      useTexture := useTexture }

/-- Convenience: the vector-mode configuration the constructor produces for a
nonempty dash list (`dashSize = dash.sum`). -/
def mkVecCfg (dash : List ℚ) (scale offset : ℚ) : DLConfig :=
  { dash := dash, dashSize := dash.sum, scale := scale, offset := offset,
    useTexture := false }

/-- `this.dash[i]` — JavaScript indexing; in-range in every reachable use. -/
def getD (l : List ℚ) (i : ℕ) : ℚ := l.getD i 0

/-- The phase-lookup `for` loop of `lineTo` (lines 184-193): walk the scaled
cumulative lengths from `dashX`, returning the first index whose scaled
interval contains `place`.  `none` models falling off the end of the loop
(in which case the JavaScript leaves the initial `dashIndex = 0`,
`dashStart = 0`). -/
def locateAux (scale place : ℚ) : List ℚ → ℚ → Option (ℕ × ℚ)
  | [], _ => none
  | d :: rest, dashX =>
    if place < dashX + d * scale then some (0, place - dashX)
    else (locateAux scale place rest (dashX + d * scale)).map
      fun p => (p.1 + 1, p.2)

/-- The phase lookup performed at the start of a vector-mode `lineTo`
(lines 180-193): `place = (lineLength + offset) % (dashSize * scale)`
followed by the cumulative walk. -/
def locate (cfg : DLConfig) (lineLength : ℚ) : ℕ × ℚ :=
  (locateAux cfg.scale (jsMod (lineLength + cfg.offset) (cfg.dashSize * cfg.scale))
    cfg.dash 0).getD (0, 0)

/-- `dashIndex++; dashIndex = dashIndex === this.dash.length ? 0 : dashIndex`. -/
def nextIdx (len i : ℕ) : ℕ := if i + 1 = len then 0 else i + 1

/-- The `while (remaining > 0)` stride walk of vector-mode `lineTo`
(lines 195-236), fuel-indexed.  Arguments after the direction are: fuel,
current position `x0 y0`, `dashIndex`, `dashStart`, `remaining`.  The `Bool`
result is `true` iff the loop terminated (by exhausting `remaining` or by
the closing-seam `break`) within the fuel. -/
def strideWalk (dash : List ℚ) (scale : ℚ) (closed : Bool)
    (stx sty cos sin : ℚ) :
    ℕ → ℚ → ℚ → ℕ → ℚ → ℚ → List GCall × Bool
  | 0, _, _, _, _, _ => ([], false)
  | fuel + 1, x0, y0, dashIndex, dashStart, remaining =>
    if remaining > 0 then
      let dashSize := getD dash dashIndex * scale - dashStart
      let dist := if remaining > dashSize then dashSize else remaining
      if closed &&
          decide (distQ (x0 + cos * dist) (y0 + sin * dist) stx sty ≤ dist) then
        if dashIndex % 2 = 0 then
          let lastDash := distQ x0 y0 stx sty - getD dash (dash.length - 1) * scale
          ([GCall.lineTo (x0 + cos * lastDash) (y0 + sin * lastDash)], true)
        else ([], true)
      else
        let x1 := x0 + cos * dist
        let y1 := y0 + sin * dist
        let call := if dashIndex % 2 = 0 then GCall.lineTo x1 y1
          else GCall.moveTo x1 y1
        let next := strideWalk dash scale closed stx sty cos sin fuel x1 y1
          (nextIdx dash.length dashIndex) 0 (remaining - dist)
        (call :: next.1, next.2)
    else ([], true)

/-- `moveTo` (lines 145-151): resets `lineLength`, sets cursor and subpath
start, and issues one surface `moveTo`. -/
def moveToM (x y : ℚ) : DLState × List GCall :=
  ({ lineLength := 0, cx := x, cy := y, startx := x, starty := y },
   [GCall.moveTo x y])

/-- `lineTo` (lines 153-241).  `fuel` bounds the vector-mode `while` loop;
if the fuel runs out the calls emitted so far are returned (the JavaScript
would still be looping).  The texture branch records the pen lift, the
stroke-matrix update of `adjustStrokeStyle` (lines 512-528) and the single
continuous stroke primitive. -/
def lineToM (cfg : DLConfig) (fuel : ℕ) (st : DLState) (x y : ℚ)
    (closePath : Bool) : DLState × List GCall :=
  let length := distQ st.cx st.cy x y
  -- cos/sin of atan2(y - cursor.y, x - cursor.x); atan2 0 0 = 0
  let cos := if length = 0 then 1 else (x - st.cx) / length
  let sin := if length = 0 then 0 else (y - st.cy) / length
  let closed := closePath && decide (x = st.startx) && decide (y = st.starty)
  let calls :=
    if cfg.useTexture then
      let texStart := -(st.lineLength + cfg.offset)
      let pre := [GCall.moveTo st.cx st.cy,
        GCall.strokeTex cos sin cfg.scale (st.cx + texStart * cos)
          (st.cy + texStart * sin)]
      if closed && decide (cfg.dash.length % 2 = 0) then
        let gap := min (getD cfg.dash (cfg.dash.length - 1)) length
        pre ++ [GCall.lineTo (x - cos * gap) (y - sin * gap), GCall.closePath]
      else pre ++ [GCall.lineTo x y]
    else
      let loc := locate cfg st.lineLength
      (strideWalk cfg.dash cfg.scale closed st.startx st.starty cos sin fuel
        st.cx st.cy loc.1 loc.2 length).1
  ({ st with lineLength := st.lineLength + length, cx := x, cy := y }, calls)

/-- `closePath` (lines 243-245): `lineTo(start.x, start.y, true)`. -/
def closePathM (cfg : DLConfig) (fuel : ℕ) (st : DLState) :
    DLState × List GCall :=
  lineToM cfg fuel st st.startx st.starty true

/-- Is a surface call a draw primitive (`lineTo`)? -/
def isDrawCall : GCall → Bool
  | GCall.lineTo _ _ => true
  | _ => false

/-- pixi `Matrix`: `apply` sends `(x, y)` to `(a*x + c*y + tx, b*x + d*y + ty)`. -/
structure MatrixQ where
  a : ℚ
  b : ℚ
  c : ℚ
  d : ℚ
  tx : ℚ
  ty : ℚ
deriving DecidableEq, Repr

/-- `Matrix.apply` on a point. -/
def MatrixQ.applyP (m : MatrixQ) (p : ℚ × ℚ) : ℚ × ℚ :=
  (m.a * p.1 + m.c * p.2 + m.tx, m.b * p.1 + m.d * p.2 + m.ty)

/-- A call made on the tracer itself (`this.moveTo` / `this.lineTo`). -/
inductive TCall where
  | move (x y : ℚ)
  | line (x y : ℚ) (close : Bool)
deriving DecidableEq, Repr

/-- `circle` (lines 247-284) as the sequence of tracer calls it issues.
`cosf`, `sinf` and `twoPi` are the ambient `Math.cos`, `Math.sin` and
`2 * Math.PI`, kept abstract.  Note the source applies the matrix to the
first sampled point only; the samples inside the loop are fed to the tracer
untransformed. -/
def circleCalls (cosf sinf : ℚ → ℚ) (twoPi x y radius : ℚ) (points : ℕ)
    (matrix : Option MatrixQ) : List TCall :=
  let interval := twoPi / (points : ℚ)
  let first0 : ℚ × ℚ := (x + cosf 0 * radius, y + sinf 0 * radius)
  let first := match matrix with
    | some m => m.applyP first0
    | none => first0
  TCall.move first.1 first.2 ::
    (List.range points).map fun j =>
      let i : ℕ := j + 1
      let angle := interval * (i : ℚ)
      let next := if i = points then first
        else (x + cosf angle * radius, y + sinf angle * radius)
      TCall.line next.1 next.2 false

/-- The stride walk of lines 195-236 projected onto arc length: entry
`(b, t)` is a stride whose end lies at accumulated distance `t`, drawn
(`lineTo`) iff `b`.  This is the same recursion as `strideWalk` with the
position bookkeeping `x0 = cx + cos*(t - t₀)` replaced by `t` itself and
the closing branch absent (`closed = false`). -/
def strides1 (dash : List ℚ) (scale : ℚ) :
    ℕ → ℕ → ℚ → ℚ → ℚ → List (Bool × ℚ) × Bool
  | 0, _, _, _, _ => ([], false)
  | fuel + 1, i, s, t, r =>
    if r > 0 then
      let size := getD dash i * scale - s
      let d := if r > size then size else r
      let next := strides1 dash scale fuel (nextIdx dash.length i) 0 (t + d) (r - d)
      ((decide (i % 2 = 0), t + d) :: next.1, next.2)
    else ([], true)

/-- The arc-length strides of a vector-mode `lineTo` issued when the
accumulated length is `t` and the segment length is `L`: the phase is
resumed through `locate`, as lines 180-193 do. -/
def stridesAt (cfg : DLConfig) (fuel : ℕ) (t L : ℚ) : List (Bool × ℚ) × Bool :=
  strides1 cfg.dash cfg.scale fuel (locate cfg t).1 (locate cfg t).2 t L

/-- Collapse consecutive strides of equal parity, keeping the last: the
result records exactly the draw/gap boundary distances (each position where
the pen state flips, plus the end of the walk). -/
def mergeAdj : List (Bool × ℚ) → List (Bool × ℚ)
  | [] => []
  | [a] => [a]
  | a :: b :: rest =>
    if a.1 = b.1 then mergeAdj (b :: rest) else a :: mergeAdj (b :: rest)

/-- Project a surface call emitted while walking the segment that starts at
`(cx, cy)` with unit direction `(cos, sin)` and accumulated length `base`
back to `(isDraw, accumulated distance)`. -/
def distAlong (cx cy cos sin base : ℚ) : GCall → Bool × ℚ
  | GCall.lineTo x y => (true, base + (x - cx) * cos + (y - cy) * sin)
  | GCall.moveTo x y => (false, base + (x - cx) * cos + (y - cy) * sin)
  | _ => (false, 0)

/-- Embed an arc-length stride back into the plane. -/
def toCall (cx cy cos sin base : ℚ) (e : Bool × ℚ) : GCall :=
  if e.1 then GCall.lineTo (cx + cos * (e.2 - base)) (cy + sin * (e.2 - base))
  else GCall.moveTo (cx + cos * (e.2 - base)) (cy + sin * (e.2 - base))

/-- The closing-seam walk exactly as claim C2 (spec §4.2) words it, in arc
length along a segment of length `L` ending at the subpath start: walk the
strides; at the first stride whose end is within its own consumed distance
of the subpath start, stop — emitting, if the stride is a draw stride, a
final draw ending one full final gap-length (the pattern's last entry,
scaled) short of the subpath start, and nothing otherwise. -/
def closeWalkSpec (dash : List ℚ) (scale L : ℚ) :
    ℕ → ℕ → ℚ → ℚ → List (Bool × ℚ) × Bool
  | 0, _, _, _ => ([], false)
  | fuel + 1, i, s, t =>
    if L - t > 0 then
      let size := getD dash i * scale - s
      let d := if L - t > size then size else L - t
      if L - (t + d) ≤ d then
        (if i % 2 = 0 then
          [(true, L - getD dash (dash.length - 1) * scale)] else [], true)
      else
        let next := closeWalkSpec dash scale L fuel (nextIdx dash.length i) 0 (t + d)
        ((decide (i % 2 = 0), t + d) :: next.1, next.2)
    else ([], true)

/-- Scaled cumulative length of the first `i` pattern entries. -/
def psum (dash : List ℚ) (i : ℕ) : ℚ := (dash.take i).sum

/-- Midpoint of two points. -/
def midP (p q : ℚ × ℚ) : ℚ × ℚ := ((p.1 + q.1) / 2, (p.2 + q.2) / 2)

/-- Twice the signed area of the triangle `u v w`; `|crossP u w v|` is
proportional to the perpendicular deviation of `v` from the chord `u w`. -/
def crossP (u w v : ℚ × ℚ) : ℚ :=
  (w.1 - u.1) * (v.2 - u.2) - (w.2 - u.2) * (v.1 - u.1)

/-- Modelled from the spec: the repository ships no curve flattener under
src/ (spec §4.4 describes `flattenCubic`); flatness measure per the spec's
"maximum perpendicular deviation of control points from the chord", taken
here as the larger of the two control points' cross-product deviations. -/
def flatCubic (p0 p1 p2 p3 : ℚ × ℚ) : ℚ :=
  max |crossP p0 p3 p1| |crossP p0 p3 p2|

/-- Modelled from the spec: `flattenCubic(p0,p1,p2,p3,tolerance)` (spec
§4.4) — recursive subdivision: if the flatness measure is within
`tolerance` emit the endpoint and stop, else split by de Casteljau at the
midpoint parameter and recurse on both halves; the depth cap forces a stop
that accepts the current flatness.  Returns the points from (exclusive)
`p0` to (inclusive) `p3`. -/
def flattenCubic (tol : ℚ) : ℕ → ℚ × ℚ → ℚ × ℚ → ℚ × ℚ → ℚ × ℚ → List (ℚ × ℚ)
  | 0, _, _, _, p3 => [p3]
  | depth + 1, p0, p1, p2, p3 =>
    if flatCubic p0 p1 p2 p3 ≤ tol then [p3]
    else
      let p01 := midP p0 p1
      let p12 := midP p1 p2
      let p23 := midP p2 p3
      let p012 := midP p01 p12
      let p123 := midP p12 p23
      let m := midP p012 p123
      flattenCubic tol depth p0 p01 p012 m ++ flattenCubic tol depth m p123 p23 p3

/-- Modelled from the spec: flatness measure for the quadratic flattener,
the single control point's deviation from the chord. -/
def flatQuad (p0 p1 p2 : ℚ × ℚ) : ℚ := |crossP p0 p2 p1|

/-- Modelled from the spec: `flattenQuadratic(p0,p1,p2,tolerance)` (spec
§4.4), with the same depth-cap behaviour as `flattenCubic`. -/
def flattenQuadratic (tol : ℚ) : ℕ → ℚ × ℚ → ℚ × ℚ → ℚ × ℚ → List (ℚ × ℚ)
  | 0, _, _, p2 => [p2]
  | depth + 1, p0, p1, p2 =>
    if flatQuad p0 p1 p2 ≤ tol then [p2]
    else
      let p01 := midP p0 p1
      let p12 := midP p1 p2
      let m := midP p01 p12
      flattenQuadratic tol depth p0 p01 m ++ flattenQuadratic tol depth m p12 p2

end DashedLine

namespace DashedLine

/-! ### Basic arithmetic facts about the embedding -/

/-- `distQ` evaluates exactly whenever the squared distance is a perfect
rational square. -/
theorem distQ_eq_of_sq {x1 y1 x2 y2 d : ℚ}
    (h : (x2 - x1) ^ 2 + (y2 - y1) ^ 2 = d * d) (hd : 0 ≤ d) :
    distQ x1 y1 x2 y2 = d := by
  unfold distQ
  rw [h, Rat.sqrt_eq, abs_of_nonneg hd]

/-- A zero-length segment has distance zero. -/
theorem distQ_self (x y : ℚ) : distQ x y x y = 0 :=
  distQ_eq_of_sq (by ring) le_rfl

/-- Horizontal distance. -/
theorem distQ_horiz (x y w : ℚ) (hw : 0 ≤ w) : distQ x y (x + w) y = w :=
  distQ_eq_of_sq (by ring) hw

/-- Vertical distance. -/
theorem distQ_vert (x y h : ℚ) (hh : 0 ≤ h) : distQ x y x (y + h) = h :=
  distQ_eq_of_sq (by ring) hh

end DashedLine

namespace DashedLine

/-- `lineTo` always advances `lineLength` by the segment's length; it never
resets it (only `moveTo` does). -/
theorem lineToM_length_add (cfg : DLConfig) (fuel : ℕ) (st : DLState)
    (x y : ℚ) (cp : Bool) :
    ((lineToM cfg fuel st x y cp).1).lineLength
      = st.lineLength + distQ st.cx st.cy x y := rfl

/-- A walk with nothing remaining emits nothing, whatever the fuel. -/
theorem strideWalk_fst_of_nonpos (dash : List ℚ) (scale : ℚ) (closed : Bool)
    (stx sty cos sin : ℚ) (fuel : ℕ) (x0 y0 : ℚ) (i : ℕ) (s r : ℚ)
    (h : r ≤ 0) :
    (strideWalk dash scale closed stx sty cos sin fuel x0 y0 i s r).1 = [] := by
  cases fuel with
  | zero => rfl
  | succ n => simp [strideWalk, not_lt.mpr h]

end DashedLine

namespace DashedLine

/-! ### Claim C5 -/

/-- C5: a single vector-mode `lineTo` of length 32 immediately after a
`moveTo`, with pattern `[10,5]`, scale 1, offset 0, emits exactly the draw
strides `[0,10]`, `[15,25]` and `[30,32]` (draws ending at 10, 25, 32 with
pen lifts at 15 and 30, the last draw truncated to the remaining length 2),
i.e. `⌈32/15⌉ = 3` draw strides. -/
theorem C5_single_line_strides :
    (lineToM (mkVecCfg [10, 5] 1 0) 10 (moveToM 0 0).1 32 0 false).2
        = [GCall.lineTo 10 0, GCall.moveTo 15 0, GCall.lineTo 25 0,
           GCall.moveTo 30 0, GCall.lineTo 32 0]
    ∧ ((lineToM (mkVecCfg [10, 5] 1 0) 10 (moveToM 0 0).1 32 0 false).2.filter
          isDrawCall).length = 3
    ∧ ⌈(32 : ℚ) / 15⌉ = (3 : ℤ) := by
  have h : distQ 0 0 32 0 = 32 := distQ_eq_of_sq (by norm_num) (by norm_num)
  refine ⟨?_, ?_, ?_⟩
  · norm_num [lineToM, moveToM, mkVecCfg, h, locate, jsMod, jsTrunc, locateAux,
      strideWalk, getD, nextIdx]
  · norm_num [lineToM, moveToM, mkVecCfg, h, locate, jsMod, jsTrunc, locateAux,
      strideWalk, getD, nextIdx, isDrawCall]
  · rw [Int.ceil_eq_iff] <;> norm_num

/-! ### Claim C4, counterexample part -/

/-- C4: counterexample to "the earlier segment wins on an exact boundary".
With pattern `[10,5]`, scale 1, offset 0 and traveled distance 10, `place`
is exactly the boundary between segment 0 (the earlier segment, ending
there) and segment 1; the lookup returns index 1 with residual 0 — the
later segment — because the code's comparison is strict (`place < dashX +
dashSize`). -/
theorem C4_boundary_counterexample :
    locate (mkVecCfg [10, 5] 1 0) 10 = (1, 0) ∧ (1 : ℕ) ≠ 0 := by
  refine ⟨?_, by norm_num⟩
  norm_num [locate, mkVecCfg, jsMod, jsTrunc, locateAux]

/-! ### Claim C6 -/

/-- C6: counterexample to "a non-positive dash entry fails fast at
construction": constructing with dash `[0]` succeeds (no rejection of any
kind); the validation the claim describes does not exist in the code. -/
theorem C6_nonpositive_constructs_ok :
    construct [0] 1 0 false = Except.ok (⟨[0], 0, 1, 0, false⟩ : DLConfig) := rfl

/-- C6 (amended): only the empty dash pattern fails at construction — via
the generic `TypeError` of `Array.prototype.reduce` on an empty array, not
a descriptive validation — while a pattern with a non-positive entry such
as `[0]` constructs successfully and then makes the vector-mode
segmentation loop run forever (for every fuel bound the walk of a length-1
segment is still incomplete, consuming zero distance per iteration). -/
theorem C6_construction_validation :
    construct ([] : List ℚ) 1 0 false
        = Except.error "Reduce of empty array with no initial value"
    ∧ construct [0] 1 0 false = Except.ok (⟨[0], 0, 1, 0, false⟩ : DLConfig)
    ∧ ∀ fuel : ℕ, (strideWalk [0] 1 false 5 5 1 0 fuel 0 0 0 0 1).2 = false := by
  refine ⟨rfl, rfl, ?_⟩
  intro fuel
  induction fuel with
  | zero => rfl
  | succ n ih =>
    rw [strideWalk]
    norm_num [getD, nextIdx]
    convert ih using 2

/-! ### Claim C7 -/

/-- C7: evaluation of `circle` at a failing input.  With center `(0,0)`,
radius 1, 4 points and the translation matrix `(tx, ty) = (5, 7)` (cos/sin
oracles kept abstract and instantiated with `id` / `0`), the trace is one
tracer `moveTo` of the transformed first point followed by 4 `lineTo`s, and
the last `lineTo` targets exactly the first (transformed) point — but the
intermediate samples are fed untransformed: the second call's target
`(1, 0)` is the raw sample, not its matrix image `(6, 7)`, contradicting
the claim that every sampled point is transformed before being fed to the
tracer. -/
theorem C7_circle_matrix_bug :
    circleCalls id (fun _ => 0) 4 0 0 1 4 (some ⟨1, 0, 0, 1, 5, 7⟩)
        = [TCall.move 5 7, TCall.line 1 0 false, TCall.line 2 0 false,
           TCall.line 3 0 false, TCall.line 5 7 false]
    ∧ MatrixQ.applyP ⟨1, 0, 0, 1, 5, 7⟩ (1, 0) ≠ (1, 0) := by
  constructor
  · norm_num [circleCalls, MatrixQ.applyP, List.range_succ]
  · norm_num [MatrixQ.applyP]

/-! ### Claim C8 -/

/-- C8: counterexample to "a zero-length subpath emits no draw primitive in
both modes": in texture mode, `moveTo(1,2)` followed by `closePath()`
emits a pen lift, a stroke-style update, a zero-length `lineTo` — a draw
primitive — and a surface `closePath`. -/
theorem C8_texture_emits_draw :
    (closePathM (⟨[10, 5], 15, 1, 0, true⟩ : DLConfig) 5 (moveToM 1 2).1).2
        = [GCall.moveTo 1 2, GCall.strokeTex 1 0 1 1 2, GCall.lineTo 1 2,
           GCall.closePath]
    ∧ isDrawCall (GCall.lineTo 1 2) = true := by
  constructor
  · norm_num [closePathM, lineToM, moveToM, distQ_self, getD]
  · rfl

/-- C8 (amended): `moveTo(x,y)` followed by `closePath()` never throws and
never corrupts the tracer state in either mode; in vector mode it emits
nothing at all, while in texture mode it emits a zero-length draw primitive
targeting `(x, y)` (plus pen lift / stroke update) even though the tracer
state is still left intact. -/
theorem C8_zero_length_closePath :
    (∀ (dash : List ℚ) (scale offset x y : ℚ) (fuel : ℕ),
      closePathM (mkVecCfg dash scale offset) fuel (moveToM x y).1
        = ((moveToM x y).1, []))
    ∧ ∀ (dash : List ℚ) (scale offset x y : ℚ) (fuel : ℕ), dash ≠ [] →
        (∀ d ∈ dash, 0 ≤ d) →
        (closePathM (⟨dash, dash.sum, scale, offset, true⟩ : DLConfig) fuel
            (moveToM x y).1).1 = (moveToM x y).1
        ∧ GCall.lineTo x y ∈
            (closePathM (⟨dash, dash.sum, scale, offset, true⟩ : DLConfig) fuel
              (moveToM x y).1).2 := by
  constructor
  · intro dash scale offset x y fuel
    have hw : ∀ (cl : Bool) (c s : ℚ) (i : ℕ) (ds : ℚ),
        (strideWalk dash scale cl x y c s fuel x y i ds 0).1 = [] :=
      fun cl c s i ds =>
        strideWalk_fst_of_nonpos _ _ _ _ _ _ _ _ _ _ _ _ _ le_rfl
    unfold closePathM lineToM moveToM
    simp [mkVecCfg, distQ_self, hw]
  · intro dash scale offset x y fuel hne hpos
    have hlast : (0 : ℚ) ≤ getD dash (dash.length - 1) := by
      apply hpos
      have hl : dash.length - 1 < dash.length :=
        Nat.sub_lt (List.length_pos.mpr hne) one_pos
      rw [getD, List.getD_eq_getElem dash 0 hl]
      exact List.getElem_mem hl
    constructor
    · unfold closePathM lineToM moveToM
      simp [distQ_self]
    · unfold closePathM lineToM moveToM
      simp only [distQ_self]
      by_cases h2 : dash.length % 2 = 0
      · simp [h2, min_eq_right hlast, distQ_self]
      · simp [h2]

/-- C8 witness: the amended theorem applied at pattern `[10,5]`, scale 1,
offset 0, subpath start `(1,2)`. -/
theorem C8_witness :
    (([10, 5] : List ℚ) ≠ [] ∧ ∀ d ∈ ([10, 5] : List ℚ), 0 ≤ d)
    ∧ closePathM (mkVecCfg [10, 5] 1 0) 5 (moveToM 1 2).1
        = ((moveToM 1 2).1, [])
    ∧ GCall.lineTo 1 2 ∈
        (closePathM (⟨[10, 5], 15, 1, 0, true⟩ : DLConfig) 5 (moveToM 1 2).1).2 := by
  refine ⟨⟨List.cons_ne_nil _ _, by norm_num⟩,
    C8_zero_length_closePath.1 [10, 5] 1 0 1 2 5, ?_⟩
  have h := (C8_zero_length_closePath.2 [10, 5] 1 0 1 2 5 (List.cons_ne_nil _ _)
    (by norm_num)).2
  have hsum : ([10, 5] : List ℚ).sum = 15 := by norm_num
  rw [hsum] at h
  exact h

/-! ### Claim C10 -/

/-- C10: whenever the target of `lineTo` differs from the subpath start in
either coordinate, the `closePath` flag is inert: the call returns the same
state and emits the same surface primitives with the flag as without it, in
both vector and texture mode (the configuration is arbitrary). -/
theorem C10_close_flag_noop (cfg : DLConfig) (fuel : ℕ) (st : DLState)
    (x y : ℚ) (h : x ≠ st.startx ∨ y ≠ st.starty) :
    lineToM cfg fuel st x y true = lineToM cfg fuel st x y false := by
  have hb : (decide (x = st.startx) && decide (y = st.starty)) = false := by
    rcases h with h | h <;> simp [h]
  simp only [lineToM, Bool.true_and, Bool.false_and, Bool.and_assoc, hb,
    Bool.and_false]

/-- C10 witness: target `(1,0)` differs from subpath start `(0,0)`. -/
theorem C10_witness :
    ((1 : ℚ) ≠ (⟨0, 0, 0, 0, 0⟩ : DLState).startx
      ∨ (0 : ℚ) ≠ (⟨0, 0, 0, 0, 0⟩ : DLState).starty)
    ∧ lineToM (mkVecCfg [10, 5] 1 0) 5 ⟨0, 0, 0, 0, 0⟩ 1 0 true
        = lineToM (mkVecCfg [10, 5] 1 0) 5 ⟨0, 0, 0, 0, 0⟩ 1 0 false :=
  ⟨Or.inl (by norm_num),
   C10_close_flag_noop _ 5 ⟨0, 0, 0, 0, 0⟩ 1 0 (Or.inl (by norm_num))⟩

end DashedLine

namespace DashedLine

/-! ### Claim C9 -/

/-- The cubic flattener always returns between 1 and `2^depth` points and
ends with the curve's endpoint. -/
theorem flattenCubic_len (tol : ℚ) :
    ∀ (d : ℕ) (p0 p1 p2 p3 : ℚ × ℚ),
      1 ≤ (flattenCubic tol d p0 p1 p2 p3).length
      ∧ (flattenCubic tol d p0 p1 p2 p3).length ≤ 2 ^ d
      ∧ (flattenCubic tol d p0 p1 p2 p3).getLast? = some p3 := by
  intro d
  induction d with
  | zero => intro p0 p1 p2 p3; exact ⟨le_rfl, le_rfl, rfl⟩
  | succ n ih =>
    intro p0 p1 p2 p3
    rw [flattenCubic]
    by_cases h : flatCubic p0 p1 p2 p3 ≤ tol
    · simp only [if_pos h]
      refine ⟨le_rfl, ?_, rfl⟩
      exact Nat.one_le_two_pow
    · simp only [if_neg h]
      refine ⟨?_, ?_, ?_⟩
      · rw [List.length_append]
        have h1 := (ih p0 (midP p0 p1) (midP (midP p0 p1) (midP p1 p2))
          (midP (midP (midP p0 p1) (midP p1 p2)) (midP (midP p1 p2) (midP p2 p3)))).1
        omega
      · rw [List.length_append, pow_succ]
        have h1 := (ih p0 (midP p0 p1) (midP (midP p0 p1) (midP p1 p2))
          (midP (midP (midP p0 p1) (midP p1 p2)) (midP (midP p1 p2) (midP p2 p3)))).2.1
        have h2 := (ih (midP (midP (midP p0 p1) (midP p1 p2)) (midP (midP p1 p2) (midP p2 p3)))
          (midP (midP p1 p2) (midP p2 p3)) (midP p2 p3) p3).2.1
        omega
      · rw [List.getLast?_append_of_ne_nil]
        · exact (ih _ _ _ _).2.2
        · intro hnil
          have h3 := (ih (midP (midP (midP p0 p1) (midP p1 p2)) (midP (midP p1 p2) (midP p2 p3)))
            (midP (midP p1 p2) (midP p2 p3)) (midP p2 p3) p3).1
          rw [hnil] at h3
          simp at h3

/-- The quadratic flattener always returns between 1 and `2^depth` points
and ends with the curve's endpoint. -/
theorem flattenQuadratic_len (tol : ℚ) :
    ∀ (d : ℕ) (p0 p1 p2 : ℚ × ℚ),
      1 ≤ (flattenQuadratic tol d p0 p1 p2).length
      ∧ (flattenQuadratic tol d p0 p1 p2).length ≤ 2 ^ d
      ∧ (flattenQuadratic tol d p0 p1 p2).getLast? = some p2 := by
  intro d
  induction d with
  | zero => intro p0 p1 p2; exact ⟨le_rfl, le_rfl, rfl⟩
  | succ n ih =>
    intro p0 p1 p2
    rw [flattenQuadratic]
    by_cases h : flatQuad p0 p1 p2 ≤ tol
    · simp only [if_pos h]
      refine ⟨le_rfl, ?_, rfl⟩
      exact Nat.one_le_two_pow
    · simp only [if_neg h]
      refine ⟨?_, ?_, ?_⟩
      · rw [List.length_append]
        have h1 := (ih p0 (midP p0 p1) (midP (midP p0 p1) (midP p1 p2))).1
        omega
      · rw [List.length_append, pow_succ]
        have h1 := (ih p0 (midP p0 p1) (midP (midP p0 p1) (midP p1 p2))).2.1
        have h2 := (ih (midP (midP p0 p1) (midP p1 p2)) (midP p1 p2) p2).2.1
        omega
      · rw [List.getLast?_append_of_ne_nil]
        · exact (ih _ _ _).2.2
        · intro hnil
          have h3 := (ih (midP (midP p0 p1) (midP p1 p2)) (midP p1 p2) p2).1
          rw [hnil] at h3
          simp at h3

/-- C9 (spec-modelled: the curve flattener is absent from src/): both
flatteners terminate on every input — control points and tolerance
arbitrary, including degenerate ones — returning a nonempty list of at most
`2^cap` points ending at the curve endpoint, and hitting the recursion-depth
cap is a forced stop accepting the current flatness (at cap 0 the endpoint
alone is returned), not an error. -/
theorem C9_flattener_terminates :
    (∀ (tol : ℚ) (cap : ℕ) (p0 p1 p2 p3 : ℚ × ℚ),
      1 ≤ (flattenCubic tol cap p0 p1 p2 p3).length
      ∧ (flattenCubic tol cap p0 p1 p2 p3).length ≤ 2 ^ cap
      ∧ (flattenCubic tol cap p0 p1 p2 p3).getLast? = some p3
      ∧ flattenCubic tol 0 p0 p1 p2 p3 = [p3])
    ∧ ∀ (tol : ℚ) (cap : ℕ) (p0 p1 p2 : ℚ × ℚ),
      1 ≤ (flattenQuadratic tol cap p0 p1 p2).length
      ∧ (flattenQuadratic tol cap p0 p1 p2).length ≤ 2 ^ cap
      ∧ (flattenQuadratic tol cap p0 p1 p2).getLast? = some p2
      ∧ flattenQuadratic tol 0 p0 p1 p2 = [p2] := by
  constructor
  · intro tol cap p0 p1 p2 p3
    obtain ⟨h1, h2, h3⟩ := flattenCubic_len tol cap p0 p1 p2 p3
    exact ⟨h1, h2, h3, rfl⟩
  · intro tol cap p0 p1 p2
    obtain ⟨h1, h2, h3⟩ := flattenQuadratic_len tol cap p0 p1 p2
    exact ⟨h1, h2, h3, rfl⟩

end DashedLine

namespace DashedLine

/-- For a nonnegative argument JavaScript truncation is the floor. -/
theorem jsTrunc_of_nonneg {q : ℚ} (h : 0 ≤ q) : jsTrunc q = ⌊q⌋ := if_pos h

/-- JavaScript remainder of nonnegative by positive is nonnegative. -/
theorem jsMod_nonneg {a m : ℚ} (ha : 0 ≤ a) (hm : 0 < m) : 0 ≤ jsMod a m := by
  unfold jsMod
  rw [jsTrunc_of_nonneg (div_nonneg ha hm.le)]
  have hle : (⌊a / m⌋ : ℚ) ≤ a / m := Int.floor_le _
  have hdiv : m * (a / m) = a := by field_simp
  nlinarith [mul_le_mul_of_nonneg_left hle hm.le]

/-- JavaScript remainder of nonnegative by positive is below the divisor. -/
theorem jsMod_lt {a m : ℚ} (ha : 0 ≤ a) (hm : 0 < m) : jsMod a m < m := by
  unfold jsMod
  rw [jsTrunc_of_nonneg (div_nonneg ha hm.le)]
  have hlt : a / m < ⌊a / m⌋ + 1 := Int.lt_floor_add_one _
  have hdiv : m * (a / m) = a := by field_simp
  nlinarith [mul_lt_mul_of_pos_left hlt hm]

/-- Advancing within the current period leaves the quotient unchanged. -/
theorem jsMod_add_of_lt {a m δ : ℚ} (ha : 0 ≤ a) (hm : 0 < m) (hδ : 0 ≤ δ)
    (h : jsMod a m + δ < m) : jsMod (a + δ) m = jsMod a m + δ := by
  have h' : a - m * (⌊a / m⌋ : ℚ) + δ < m := by
    rw [jsMod, jsTrunc_of_nonneg (div_nonneg ha hm.le)] at h
    exact h
  have hfl : ⌊(a + δ) / m⌋ = ⌊a / m⌋ := by
    rw [Int.floor_eq_iff]
    constructor
    · calc ((⌊a / m⌋ : ℤ) : ℚ) ≤ a / m := Int.floor_le _
        _ ≤ (a + δ) / m := by gcongr <;> linarith

    · rw [div_lt_iff₀ hm]
      push_cast
      nlinarith
  rw [jsMod, jsMod, jsTrunc_of_nonneg (div_nonneg (by linarith) hm.le),
    jsTrunc_of_nonneg (div_nonneg ha hm.le), hfl]
  ring

/-- Advancing exactly to the end of the period wraps the remainder to 0. -/
theorem jsMod_add_of_eq {a m δ : ℚ} (ha : 0 ≤ a) (hm : 0 < m) (hδ : 0 ≤ δ)
    (h : jsMod a m + δ = m) : jsMod (a + δ) m = 0 := by
  have h' : a - m * (⌊a / m⌋ : ℚ) + δ = m := by
    rw [jsMod, jsTrunc_of_nonneg (div_nonneg ha hm.le)] at h
    exact h
  have hsum : a + δ = m * ((⌊a / m⌋ : ℚ) + 1) := by nlinarith
  rw [jsMod, jsTrunc_of_nonneg (div_nonneg (by linarith) hm.le), hsum,
    mul_div_cancel_left₀ _ hm.ne']
  have : ((⌊a / m⌋ : ℚ) + 1) = ((⌊a / m⌋ + 1 : ℤ) : ℚ) := by push_cast; ring
  rw [this, Int.floor_intCast]
  push_cast
  ring

/-- Cumulative sum of the first `i` pattern entries (unscaled), defined
structurally. -/
def psumR : List ℚ → ℕ → ℚ
  | _, 0 => 0
  | [], _ + 1 => 0
  | d :: rest, i + 1 => d + psumR rest i

/-- Cumulative sums of a nonnegative pattern are nonnegative. -/
theorem psumR_nonneg {dash : List ℚ} (hpos : ∀ d ∈ dash, 0 ≤ d) :
    ∀ i, 0 ≤ psumR dash i := by
  induction dash with
  | nil => intro i; cases i <;> simp [psumR]
  | cons d rest ih =>
    intro i
    cases i with
    | zero => simp [psumR]
    | succ j =>
      have h1 : 0 ≤ d := hpos d (List.mem_cons_self d rest)
      have h2 : 0 ≤ psumR rest j := ih (fun x hx => hpos x (List.mem_cons_of_mem d hx)) j
      simp only [psumR]
      linarith

/-- Indexing the head. -/
theorem getD_cons_zero (d : ℚ) (rest : List ℚ) : getD (d :: rest) 0 = d := rfl

/-- Indexing past the head. -/
theorem getD_cons_succ (d : ℚ) (rest : List ℚ) (j : ℕ) :
    getD (d :: rest) (j + 1) = getD rest j := rfl

/-- A cumulative sum through entry `i` is bounded by the full period. -/
theorem psumR_succ_le_sum {dash : List ℚ} (hpos : ∀ d ∈ dash, 0 ≤ d) :
    ∀ i, i < dash.length → psumR dash i + getD dash i ≤ dash.sum := by
  induction dash with
  | nil => intro i hi; simp at hi
  | cons d rest ih =>
    intro i hi
    cases i with
    | zero =>
      simp only [psumR, getD_cons_zero, List.sum_cons, zero_add]
      have := List.sum_nonneg fun x hx => hpos x (List.mem_cons_of_mem d hx)
      linarith
    | succ j =>
      have hj : j < rest.length := by simpa using hi
      have := ih (fun x hx => hpos x (List.mem_cons_of_mem d hx)) j hj
      simp only [psumR, getD_cons_succ, List.sum_cons]
      linarith

/-- Determination: the phase-lookup loop returns exactly the segment whose
scaled half-open interval contains `place`. -/
theorem locateAux_det {scale : ℚ} (hs : 0 < scale) :
    ∀ (dash : List ℚ) (k : ℕ) (dashX place : ℚ),
      (∀ d ∈ dash, 0 < d) → k < dash.length →
      dashX + scale * psumR dash k ≤ place →
      place < dashX + scale * (psumR dash k + getD dash k) →
      locateAux scale place dash dashX
        = some (k, place - (dashX + scale * psumR dash k)) := by
  intro dash
  induction dash with
  | nil => intro k dashX place _ hk; simp at hk
  | cons d rest ih =>
    intro k dashX place hpos hk hlo hhi
    cases k with
    | zero =>
      simp only [psumR, mul_zero, add_zero] at hlo hhi
      have hd : getD (d :: rest) 0 = d := rfl
      rw [hd] at hhi
      rw [locateAux, if_pos (by linarith [hhi])]
      simp only [psumR, mul_zero, add_zero]
    | succ j =>
      have hj : j < rest.length := by simpa using hk
      have hrest : ∀ x ∈ rest, 0 < x := fun x hx => hpos x (List.mem_cons_of_mem d hx)
      have hpr : 0 ≤ psumR rest j := psumR_nonneg (fun x hx => (hrest x hx).le) j
      have hnotlt : ¬ place < dashX + d * scale := by
        simp only [psumR] at hlo
        nlinarith
      rw [locateAux, if_neg hnotlt]
      have hlo' : dashX + d * scale + scale * psumR rest j ≤ place := by
        simp only [psumR] at hlo
        nlinarith [hlo]
      have hhi' : place < dashX + d * scale + scale * (psumR rest j + getD rest j) := by
        simp only [psumR, getD_cons_succ] at hhi
        nlinarith [hhi]
      rw [ih j (dashX + d * scale) place hrest hj hlo' hhi']
      simp only [Option.map_some', psumR]
      have harg : place - (dashX + d * scale + scale * psumR rest j)
          = place - (dashX + scale * (d + psumR rest j)) := by ring
      rw [harg]

end DashedLine

namespace DashedLine

/-- An in-range indexed entry is a member of the pattern. -/
theorem getD_mem {dash : List ℚ} {k : ℕ} (hk : k < dash.length) :
    getD dash k ∈ dash := by
  rw [getD, List.getD_eq_getElem dash 0 hk]
  exact List.getElem_mem hk

/-- `reduce((a,b) => a+b)` over a nonempty array is the list sum. -/
theorem foldl_add_eq_sum : ∀ (rest : List ℚ) (a : ℚ), rest.foldl (· + ·) a = a + rest.sum := by
  intro rest
  induction rest with
  | nil => intro a; simp
  | cons b l ih => intro a; simp only [List.foldl_cons, List.sum_cons, ih (a + b)]; ring

/-- For a nonempty pattern the constructor succeeds and produces exactly the
`mkVecCfg` configuration (`dashSize` is the pattern sum). -/
theorem construct_eq_mkVecCfg {dash : List ℚ} (hne : dash ≠ []) (scale offset : ℚ) :
    construct dash scale offset false = Except.ok (mkVecCfg dash scale offset) := by
  cases dash with
  | nil => exact absurd rfl hne
  | cons a rest =>
    simp only [construct, reduceSum, Except.map, mkVecCfg, foldl_add_eq_sum, List.sum_cons]

/-- Covering: every `place` within the scaled period falls in some scaled
segment interval. -/
theorem exists_seg {scale : ℚ} (hs : 0 < scale) :
    ∀ (dash : List ℚ) (place : ℚ), (∀ d ∈ dash, 0 < d) → 0 ≤ place →
      place < scale * dash.sum →
      ∃ k, k < dash.length ∧ scale * psumR dash k ≤ place
        ∧ place < scale * (psumR dash k + getD dash k) := by
  intro dash
  induction dash with
  | nil =>
    intro place _ h0 hlt
    simp only [List.sum_nil, mul_zero] at hlt
    linarith
  | cons d rest ih =>
    intro place hpos h0 hlt
    by_cases hd : place < scale * d
    · exact ⟨0, by simp, by simpa [psumR] using h0, by simpa [psumR, getD_cons_zero] using hd⟩
    · push_neg at hd
      have hrest : ∀ x ∈ rest, 0 < x := fun x hx => hpos x (List.mem_cons_of_mem d hx)
      have h0' : 0 ≤ place - scale * d := by linarith
      have hlt' : place - scale * d < scale * rest.sum := by
        simp only [List.sum_cons] at hlt
        nlinarith [hlt]
      obtain ⟨k, hk, hlo, hhi⟩ := ih (place - scale * d) hrest h0' hlt'
      refine ⟨k + 1, by simpa using hk, ?_, ?_⟩
      · simp only [psumR]
        nlinarith [hlo]
      · simp only [psumR, getD_cons_succ]
        nlinarith [hhi]

/-- `locate` at accumulated length `t` returns the segment whose half-open
scaled interval contains `place = jsMod (t + offset) (period * scale)`,
with the residual offset into that segment. -/
theorem locate_det (dash : List ℚ) (scale offset t : ℚ)
    (hpos : ∀ d ∈ dash, 0 < d) (hs : 0 < scale) (k : ℕ) (hk : k < dash.length)
    (hlo : scale * psumR dash k ≤ jsMod (t + offset) (dash.sum * scale))
    (hhi : jsMod (t + offset) (dash.sum * scale)
      < scale * (psumR dash k + getD dash k)) :
    locate (mkVecCfg dash scale offset) t
      = (k, jsMod (t + offset) (dash.sum * scale) - scale * psumR dash k) := by
  unfold locate mkVecCfg
  simp only []
  rw [locateAux_det hs dash k 0 _ hpos hk (by linarith) (by linarith)]
  simp only [Option.getD_some, zero_add]

/-- C3: for every nonempty positive dash pattern, positive scale and
nonnegative traveled distance and offset, the phase lookup performed at the
start of a vector-mode `lineTo` returns a segment index in
`[0, length dash)` and a residual offset `dashStart` with
`0 ≤ dashStart < dash[index] * scale`. -/
theorem C3_locate_in_range (dash : List ℚ) (scale offset lineLength : ℚ)
    (hpos : ∀ d ∈ dash, 0 < d) (hne : dash ≠ []) (hs : 0 < scale)
    (ho : 0 ≤ offset) (hll : 0 ≤ lineLength) :
    (locate (mkVecCfg dash scale offset) lineLength).1 < dash.length
    ∧ 0 ≤ (locate (mkVecCfg dash scale offset) lineLength).2
    ∧ (locate (mkVecCfg dash scale offset) lineLength).2
        < getD dash (locate (mkVecCfg dash scale offset) lineLength).1 * scale := by
  have hsum : 0 < dash.sum := List.sum_pos dash hpos hne
  have hm : 0 < dash.sum * scale := mul_pos hsum hs
  have h0 : (0:ℚ) ≤ lineLength + offset := by linarith
  have hplace0 : 0 ≤ jsMod (lineLength + offset) (dash.sum * scale) :=
    jsMod_nonneg h0 hm
  have hplace1 : jsMod (lineLength + offset) (dash.sum * scale) < dash.sum * scale :=
    jsMod_lt h0 hm
  obtain ⟨k, hk, hlo, hhi⟩ := exists_seg hs dash _ hpos hplace0 (by nlinarith [hplace1])
  rw [locate_det dash scale offset lineLength hpos hs k hk hlo hhi]
  dsimp only
  refine ⟨hk, by linarith, by nlinarith [hhi]⟩

end DashedLine

namespace DashedLine

/-- C4 (amended): the phase lookup computes
`place = (distance + offset) mod (period * scale)` and assigns it to the
scaled cumulative segments as half-open intervals `[start, start + len)`;
when `place` falls exactly on a segment boundary the LATER segment — the
one whose interval starts there — wins, with residual offset 0. -/
theorem C4_place_halfopen_later_wins (dash : List ℚ) (scale offset lineLength : ℚ)
    (hpos : ∀ d ∈ dash, 0 < d) (hs : 0 < scale) :
    (∀ k, k < dash.length →
      scale * psumR dash k ≤ jsMod (lineLength + offset) (dash.sum * scale) →
      jsMod (lineLength + offset) (dash.sum * scale)
          < scale * (psumR dash k + getD dash k) →
      locate (mkVecCfg dash scale offset) lineLength
        = (k, jsMod (lineLength + offset) (dash.sum * scale) - scale * psumR dash k))
    ∧ ∀ k, k < dash.length →
        jsMod (lineLength + offset) (dash.sum * scale) = scale * psumR dash k →
        locate (mkVecCfg dash scale offset) lineLength = (k, 0) := by
  constructor
  · intro k hk hlo hhi
    exact locate_det dash scale offset lineLength hpos hs k hk hlo hhi
  · intro k hk hb
    have hd : 0 < getD dash k := hpos _ (getD_mem hk)
    have := locate_det dash scale offset lineLength hpos hs k hk (le_of_eq hb.symm)
      (by nlinarith [hb])
    rw [this, hb]
    simp

/-- C3 witness: pattern `[10,5]`, scale 1, offset 0, traveled distance 7. -/
theorem C3_witness :
    (∀ d ∈ [(10 : ℚ), 5], 0 < d)
    ∧ (locate (mkVecCfg [10, 5] 1 0) 7).1 < ([(10 : ℚ), 5]).length
    ∧ 0 ≤ (locate (mkVecCfg [10, 5] 1 0) 7).2
    ∧ (locate (mkVecCfg [10, 5] 1 0) 7).2
        < getD [10, 5] (locate (mkVecCfg [10, 5] 1 0) 7).1 * 1 := by
  refine ⟨by norm_num, ?_⟩
  exact (C3_locate_in_range [10, 5] 1 0 7 (by norm_num) (List.cons_ne_nil _ _) (by norm_num)
    (by norm_num) (by norm_num))

/-- C4 witness: with pattern `[10,5]`, scale 1, offset 0 and traveled
distance 10, `place` is exactly the first cumulative boundary and the
lookup yields the later segment `(1, 0)`. -/
theorem C4_witness :
    jsMod ((10 : ℚ) + 0) (([(10 : ℚ), 5]).sum * 1) = 1 * psumR [10, 5] 1
    ∧ locate (mkVecCfg [10, 5] 1 0) 10 = (1, 0) := by
  have hb : jsMod ((10 : ℚ) + 0) (([(10 : ℚ), 5]).sum * 1) = 1 * psumR [10, 5] 1 := by
    norm_num [jsMod, jsTrunc, psumR]
  exact ⟨hb, (C4_place_halfopen_later_wins [10, 5] 1 0 10 (by norm_num) (by norm_num)).2 1 (by norm_num) hb⟩

end DashedLine

namespace DashedLine

/-- Exact distance between two points of the same unit-direction ray. -/
theorem distQ_onray (cx cy cos sin t L : ℚ) (hu : cos ^ 2 + sin ^ 2 = 1) :
    distQ (cx + cos * t) (cy + sin * t) (cx + cos * L) (cy + sin * L) = |L - t| := by
  unfold distQ
  have h : (cx + cos * L - (cx + cos * t)) ^ 2 + (cy + sin * L - (cy + sin * t)) ^ 2
      = (L - t) * (L - t) := by linear_combination (L - t) ^ 2 * hu
  rw [h, Rat.sqrt_eq]

/-- The source stride walk with the closing flag set, walking a segment
that ends exactly at the subpath start, emits precisely the planar image of
the claim-worded closing-seam walk `closeWalkSpec`, and terminates exactly
when it does. -/
theorem closeWalk_sim (dash : List ℚ) (scale cx cy cos sin L : ℚ)
    (hu : cos ^ 2 + sin ^ 2 = 1) :
    ∀ (fuel : ℕ) (i : ℕ) (s t : ℚ), t ≤ L →
      strideWalk dash scale true (cx + cos * L) (cy + sin * L) cos sin fuel
          (cx + cos * t) (cy + sin * t) i s (L - t)
        = (((closeWalkSpec dash scale L fuel i s t).1).map (toCall cx cy cos sin 0),
           (closeWalkSpec dash scale L fuel i s t).2) := by
  intro fuel
  induction fuel with
  | zero => intro i s t ht; rfl
  | succ n ih =>
    intro i s t ht
    rw [strideWalk, closeWalkSpec]
    by_cases hr : L - t > 0
    · rw [if_pos hr, if_pos hr]
      have hdle : t + (if L - t > getD dash i * scale - s then getD dash i * scale - s
          else L - t) ≤ L := by
        by_cases hc : L - t > getD dash i * scale - s
        · rw [if_pos hc]; linarith
        · rw [if_neg hc]; linarith
      have hrd : distQ (cx + cos * t + cos * (if L - t > getD dash i * scale - s
            then getD dash i * scale - s else L - t))
            (cy + sin * t + sin * (if L - t > getD dash i * scale - s
            then getD dash i * scale - s else L - t))
            (cx + cos * L) (cy + sin * L)
          = L - (t + (if L - t > getD dash i * scale - s then getD dash i * scale - s
              else L - t)) := by
        have h1 : cx + cos * t + cos * (if L - t > getD dash i * scale - s
            then getD dash i * scale - s else L - t)
            = cx + cos * (t + (if L - t > getD dash i * scale - s
              then getD dash i * scale - s else L - t)) := by ring
        have h2 : cy + sin * t + sin * (if L - t > getD dash i * scale - s
            then getD dash i * scale - s else L - t)
            = cy + sin * (t + (if L - t > getD dash i * scale - s
              then getD dash i * scale - s else L - t)) := by ring
        rw [h1, h2, distQ_onray cx cy cos sin _ L hu, abs_of_nonneg (by linarith)]
      simp only [hrd, Bool.true_and, decide_eq_true_eq]
      by_cases hstop : L - (t + (if L - t > getD dash i * scale - s
          then getD dash i * scale - s else L - t))
          ≤ (if L - t > getD dash i * scale - s then getD dash i * scale - s else L - t)
      · rw [if_pos hstop, if_pos hstop]
        have hlast : distQ (cx + cos * t) (cy + sin * t) (cx + cos * L) (cy + sin * L)
            = L - t := by
          rw [distQ_onray cx cy cos sin t L hu, abs_of_nonneg (by linarith)]
        by_cases hpar : i % 2 = 0
        · rw [if_pos hpar, if_pos hpar]
          simp only [hlast, List.map_cons, List.map_nil, toCall]
          have hx : cx + cos * t + cos * (L - t - getD dash (dash.length - 1) * scale)
              = cx + cos * (L - getD dash (dash.length - 1) * scale - 0) := by ring
          have hy : cy + sin * t + sin * (L - t - getD dash (dash.length - 1) * scale)
              = cy + sin * (L - getD dash (dash.length - 1) * scale - 0) := by ring
          rw [hx, hy]
          rfl
        · rw [if_neg hpar, if_neg hpar]
          rfl
      · rw [if_neg hstop, if_neg hstop]
        have hx1 : cx + cos * t + cos * (if L - t > getD dash i * scale - s
            then getD dash i * scale - s else L - t)
            = cx + cos * (t + (if L - t > getD dash i * scale - s
              then getD dash i * scale - s else L - t)) := by ring
        have hy1 : cy + sin * t + sin * (if L - t > getD dash i * scale - s
            then getD dash i * scale - s else L - t)
            = cy + sin * (t + (if L - t > getD dash i * scale - s
              then getD dash i * scale - s else L - t)) := by ring
        have hr1 : L - t - (if L - t > getD dash i * scale - s
            then getD dash i * scale - s else L - t)
            = L - (t + (if L - t > getD dash i * scale - s
              then getD dash i * scale - s else L - t)) := by ring
        rw [hx1, hy1, hr1,
          ih (nextIdx dash.length i) 0 (t + (if L - t > getD dash i * scale - s
            then getD dash i * scale - s else L - t)) hdle]
        by_cases hpar : i % 2 = 0 <;> simp [hpar, toCall]
    · rw [if_neg hr, if_neg hr]
      rfl

end DashedLine

namespace DashedLine

/-- C2: when `lineTo` is called with the closing flag and a target equal to
the subpath start (a segment of exact rational length `L > 0`), the emitted
calls are exactly the image of the spec's closing-seam walk: the stride
walk stops at the first stride whose end is within its consumed distance of
the subpath start; a draw stride then draws to the point one full final
gap-length (the pattern's last entry, scaled) short of the subpath start,
and a gap stride emits nothing further. -/
theorem C2_closing_seam (dash : List ℚ) (scale offset : ℚ) (st : DLState) (fuel : ℕ)
    (L : ℚ) (hL : 0 < L)
    (hsq : (st.startx - st.cx) ^ 2 + (st.starty - st.cy) ^ 2 = L * L) :
    (lineToM (mkVecCfg dash scale offset) fuel st st.startx st.starty true).2
      = ((closeWalkSpec dash scale L fuel
            (locate (mkVecCfg dash scale offset) st.lineLength).1
            (locate (mkVecCfg dash scale offset) st.lineLength).2 0).1).map
          (toCall st.cx st.cy ((st.startx - st.cx) / L) ((st.starty - st.cy) / L) 0) := by
  have hlen : distQ st.cx st.cy st.startx st.starty = L := distQ_eq_of_sq hsq hL.le
  set cos := (st.startx - st.cx) / L with hcosdef
  set sin := (st.starty - st.cy) / L with hsindef
  have hcos : st.startx = st.cx + cos * L := by
    rw [hcosdef]; field_simp
  have hsin : st.starty = st.cy + sin * L := by
    rw [hsindef]; field_simp
  have hu : cos ^ 2 + sin ^ 2 = 1 := by
    rw [hcosdef, hsindef]
    field_simp
    linear_combination hsq
  have hsim := closeWalk_sim dash scale st.cx st.cy cos sin L hu fuel
    (locate (mkVecCfg dash scale offset) st.lineLength).1
    (locate (mkVecCfg dash scale offset) st.lineLength).2 0 (by linarith)
  simp only [mul_zero, add_zero, sub_zero] at hsim
  rw [← hcos, ← hsin] at hsim
  simp only [mkVecCfg] at hsim
  simp only [lineToM, mkVecCfg, hlen, if_neg hL.ne', Bool.true_and, decide_True,
    Bool.and_true, Bool.false_eq_true, if_false]
  rw [← hcosdef, ← hsindef, hsim]

/-- C2 witness: cursor `(0,0)`, subpath start `(6,0)`, pattern `[2,1]`,
scale 1, offset 0. -/
theorem C2_witness :
    ((0 : ℚ) < 6)
    ∧ (((6 : ℚ) - 0) ^ 2 + ((0 : ℚ) - 0) ^ 2 = 6 * 6)
    ∧ (lineToM (mkVecCfg [2, 1] 1 0) 10 ⟨0, 0, 0, 6, 0⟩ 6 0 true).2
      = ((closeWalkSpec [2, 1] 1 6 10
            (locate (mkVecCfg [2, 1] 1 0) 0).1
            (locate (mkVecCfg [2, 1] 1 0) 0).2 0).1).map
          (toCall 0 0 ((6 - 0) / 6) ((0 - 0) / 6) 0) :=
  ⟨by norm_num, by norm_num,
   C2_closing_seam [2, 1] 1 0 ⟨0, 0, 0, 6, 0⟩ 10 6 (by norm_num) (by norm_num)⟩

end DashedLine

namespace DashedLine

/-- Cumulative sum through one more entry. -/
theorem psumR_succ_eq : ∀ (dash : List ℚ) (k : ℕ), k < dash.length →
    psumR dash (k + 1) = psumR dash k + getD dash k := by
  intro dash
  induction dash with
  | nil => intro k hk; simp at hk
  | cons d rest ih =>
    intro k hk
    cases k with
    | zero => simp [psumR, getD_cons_zero]
    | succ j =>
      have hj : j < rest.length := by simpa using hk
      simp only [psumR, getD_cons_succ, ih j hj]
      ring

/-- The cumulative sum of all entries is the period. -/
theorem psumR_len : ∀ dash : List ℚ, psumR dash dash.length = dash.sum := by
  intro dash
  induction dash with
  | nil => rfl
  | cons d rest ih => simp [psumR, List.sum_cons, ih]

/-- Soundness of `locate`: the result is the segment whose scaled
half-open interval contains `place`, with the residual offset. -/
theorem locate_bounds (dash : List ℚ) (scale offset t : ℚ)
    (hpos : ∀ d ∈ dash, 0 < d) (hne : dash ≠ []) (hs : 0 < scale)
    (hto : 0 ≤ t + offset) :
    ∃ k, k < dash.length
      ∧ locate (mkVecCfg dash scale offset) t
          = (k, jsMod (t + offset) (dash.sum * scale) - scale * psumR dash k)
      ∧ scale * psumR dash k ≤ jsMod (t + offset) (dash.sum * scale)
      ∧ jsMod (t + offset) (dash.sum * scale)
          < scale * (psumR dash k + getD dash k) := by
  have hsum : 0 < dash.sum := List.sum_pos dash hpos hne
  have hm : 0 < dash.sum * scale := mul_pos hsum hs
  obtain ⟨k, hk, hlo, hhi⟩ := exists_seg hs dash _ hpos (jsMod_nonneg hto hm)
    (by nlinarith [jsMod_lt hto hm])
  exact ⟨k, hk, locate_det dash scale offset t hpos hs k hk hlo hhi, hlo, hhi⟩

/-- Advancing within the current scaled segment moves only the residual
offset. -/
theorem locate_step_partial (dash : List ℚ) (scale offset t δ : ℚ)
    (hpos : ∀ d ∈ dash, 0 < d) (hne : dash ≠ []) (hs : 0 < scale)
    (hto : 0 ≤ t + offset) (hδ0 : 0 ≤ δ)
    (hδ : (locate (mkVecCfg dash scale offset) t).2 + δ
      < getD dash (locate (mkVecCfg dash scale offset) t).1 * scale) :
    locate (mkVecCfg dash scale offset) (t + δ)
      = ((locate (mkVecCfg dash scale offset) t).1,
         (locate (mkVecCfg dash scale offset) t).2 + δ) := by
  have hsum : 0 < dash.sum := List.sum_pos dash hpos hne
  have hm : 0 < dash.sum * scale := mul_pos hsum hs
  obtain ⟨k, hk, heq, hlo, hhi⟩ := locate_bounds dash scale offset t hpos hne hs hto
  rw [heq] at hδ ⊢
  dsimp only at hδ ⊢
  have hbound : psumR dash k + getD dash k ≤ dash.sum :=
    psumR_succ_le_sum (fun d hd => (hpos d hd).le) k hk
  have hplt : jsMod (t + offset) (dash.sum * scale) + δ < dash.sum * scale := by
    nlinarith [hδ, hbound]
  have hmod : jsMod (t + δ + offset) (dash.sum * scale)
      = jsMod (t + offset) (dash.sum * scale) + δ := by
    have := jsMod_add_of_lt hto hm hδ0 hplt
    rw [show t + δ + offset = t + offset + δ by ring]
    exact this
  have := locate_det dash scale offset (t + δ) hpos hs k hk
    (by rw [hmod]; linarith) (by rw [hmod]; nlinarith [hδ])
  rw [this, hmod]
  congr 1
  ring

/-- Consuming the rest of the current scaled segment lands exactly at the
start of the cyclically next segment. -/
theorem locate_step_full (dash : List ℚ) (scale offset t : ℚ)
    (hpos : ∀ d ∈ dash, 0 < d) (hne : dash ≠ []) (hs : 0 < scale)
    (hto : 0 ≤ t + offset) :
    locate (mkVecCfg dash scale offset)
        (t + (getD dash (locate (mkVecCfg dash scale offset) t).1 * scale
          - (locate (mkVecCfg dash scale offset) t).2))
      = (nextIdx dash.length (locate (mkVecCfg dash scale offset) t).1, 0) := by
  have hsum : 0 < dash.sum := List.sum_pos dash hpos hne
  have hm : 0 < dash.sum * scale := mul_pos hsum hs
  obtain ⟨k, hk, heq, hlo, hhi⟩ := locate_bounds dash scale offset t hpos hne hs hto
  rw [heq]
  dsimp only
  set place := jsMod (t + offset) (dash.sum * scale) with hplace
  set δ := getD dash k * scale - (place - scale * psumR dash k) with hδdef
  have hδ0 : 0 ≤ δ := by rw [hδdef]; nlinarith [hhi]
  have hsucc : psumR dash (k + 1) = psumR dash k + getD dash k := psumR_succ_eq dash k hk
  have hsum_eq : place + δ = scale * psumR dash (k + 1) := by
    rw [hδdef, hsucc]; ring
  by_cases hkend : k + 1 = dash.length
  · have hpsl : psumR dash (k + 1) = dash.sum := by rw [hkend, psumR_len]
    have hmod : jsMod (t + δ + offset) (dash.sum * scale) = 0 := by
      rw [show t + δ + offset = t + offset + δ by ring]
      apply jsMod_add_of_eq hto hm hδ0
      rw [← hplace, hsum_eq, hpsl]
      ring
    have h0 : (0:ℕ) < dash.length := List.length_pos.mpr hne
    have := locate_det dash scale offset (t + δ) hpos hs 0 h0
      (by rw [hmod]; simp [psumR])
      (by rw [hmod]
          have : 0 < getD dash 0 := hpos _ (getD_mem h0)
          simp only [psumR]
          nlinarith [this])
    rw [this]
    simp [nextIdx, hkend, hmod, psumR]
  · have hklt : k + 1 < dash.length := lt_of_le_of_ne hk hkend
    have hbound : psumR dash (k + 1) + getD dash (k + 1) ≤ dash.sum :=
      psumR_succ_le_sum (fun d hd => (hpos d hd).le) (k + 1) hklt
    have hg1 : 0 < getD dash (k + 1) := hpos _ (getD_mem hklt)
    have hplt : place + δ < dash.sum * scale := by
      rw [hsum_eq]
      nlinarith [hbound, hg1]
    have hmod : jsMod (t + δ + offset) (dash.sum * scale) = place + δ := by
      rw [show t + δ + offset = t + offset + δ by ring]
      exact jsMod_add_of_lt hto hm hδ0 hplt
    have := locate_det dash scale offset (t + δ) hpos hs (k + 1) hklt
      (by rw [hmod, hsum_eq])
      (by rw [hmod, hsum_eq]; nlinarith [hg1])
    rw [this]
    simp [nextIdx, hkend, hmod, hsum_eq]

end DashedLine

namespace DashedLine

/-- One unfolding of the arc-length walk when distance remains. -/
theorem strides1_succ_pos (dash : List ℚ) (scale : ℚ) (f : ℕ) (i : ℕ) (s t r : ℚ)
    (hr : r > 0) :
    strides1 dash scale (f + 1) i s t r
      = ((decide (i % 2 = 0),
          t + if r > getD dash i * scale - s then getD dash i * scale - s else r)
            :: (strides1 dash scale f (nextIdx dash.length i) 0
              (t + if r > getD dash i * scale - s then getD dash i * scale - s else r)
              (r - if r > getD dash i * scale - s then getD dash i * scale - s else r)).1,
         (strides1 dash scale f (nextIdx dash.length i) 0
            (t + if r > getD dash i * scale - s then getD dash i * scale - s else r)
            (r - if r > getD dash i * scale - s then getD dash i * scale - s else r)).2) := by
  rw [strides1, if_pos hr]

/-- The walk is complete and silent when nothing remains. -/
theorem strides1_nonpos (dash : List ℚ) (scale : ℚ) (f : ℕ) (i : ℕ) (s t r : ℚ)
    (hr : ¬ r > 0) :
    strides1 dash scale (f + 1) i s t r = ([], true) := by
  rw [strides1, if_neg hr]

/-- A completed walk is unchanged by extra fuel (single step). -/
theorem strides1_succ_of_complete (dash : List ℚ) (scale : ℚ) :
    ∀ (f : ℕ) (i : ℕ) (s t r : ℚ),
      (strides1 dash scale f i s t r).2 = true →
      strides1 dash scale (f + 1) i s t r = strides1 dash scale f i s t r := by
  intro f
  induction f with
  | zero => intro i s t r h; simp [strides1] at h
  | succ n ih =>
    intro i s t r h
    by_cases hr : r > 0
    · rw [strides1_succ_pos dash scale n i s t r hr] at h
      rw [strides1_succ_pos dash scale (n + 1) i s t r hr,
        strides1_succ_pos dash scale n i s t r hr]
      rw [ih _ _ _ _ h]
    · rw [strides1_nonpos dash scale (n + 1) i s t r hr,
        strides1_nonpos dash scale n i s t r hr]

/-- A completed walk is unchanged by any extra fuel. -/
theorem strides1_add_of_complete (dash : List ℚ) (scale : ℚ) (f : ℕ)
    (i : ℕ) (s t r : ℚ) (h : (strides1 dash scale f i s t r).2 = true) :
    ∀ k : ℕ, strides1 dash scale (f + k) i s t r = strides1 dash scale f i s t r := by
  intro k
  induction k with
  | zero => rfl
  | succ m ih =>
    have hc : (strides1 dash scale (f + m) i s t r).2 = true := by rw [ih]; exact h
    calc strides1 dash scale (f + (m + 1)) i s t r
        = strides1 dash scale ((f + m) + 1) i s t r := rfl
      _ = strides1 dash scale (f + m) i s t r :=
          strides1_succ_of_complete dash scale (f + m) i s t r hc
      _ = strides1 dash scale f i s t r := ih

/-- A completed walk is unchanged by raising the fuel. -/
theorem strides1_mono (dash : List ℚ) (scale : ℚ) (f f' : ℕ) (hle : f ≤ f')
    (i : ℕ) (s t r : ℚ) (h : (strides1 dash scale f i s t r).2 = true) :
    strides1 dash scale f' i s t r = strides1 dash scale f i s t r := by
  have := strides1_add_of_complete dash scale f i s t r h (f' - f)
  rwa [Nat.add_sub_cancel' hle] at this

/-- Two completed walks of the same segment agree whatever their fuels. -/
theorem strides1_complete_eq (dash : List ℚ) (scale : ℚ) (f f' : ℕ)
    (i : ℕ) (s t r : ℚ) (h : (strides1 dash scale f i s t r).2 = true)
    (h' : (strides1 dash scale f' i s t r).2 = true) :
    strides1 dash scale f i s t r = strides1 dash scale f' i s t r := by
  rcases le_total f f' with hle | hle
  · rw [strides1_mono dash scale f f' hle i s t r h]
  · rw [strides1_mono dash scale f' f hle i s t r h']

end DashedLine

namespace DashedLine

/-- Projection of the constructor-produced configuration. -/
theorem mkVecCfg_dash (dash : List ℚ) (scale offset : ℚ) :
    (mkVecCfg dash scale offset).dash = dash := rfl

/-- Projection of the constructor-produced configuration. -/
theorem mkVecCfg_scale (dash : List ℚ) (scale offset : ℚ) :
    (mkVecCfg dash scale offset).scale = scale := rfl

/-- A segment that fits inside the current stride yields one stride ending
at its accumulated endpoint. -/
theorem stridesAt_small (dash : List ℚ) (scale offset t L : ℚ) (f : ℕ)
    (hL : 0 < L)
    (hle : L ≤ getD dash (locate (mkVecCfg dash scale offset) t).1 * scale
      - (locate (mkVecCfg dash scale offset) t).2) :
    stridesAt (mkVecCfg dash scale offset) (f + 2) t L
      = ([(decide ((locate (mkVecCfg dash scale offset) t).1 % 2 = 0), t + L)],
         true) := by
  unfold stridesAt
  simp only [mkVecCfg_dash, mkVecCfg_scale]
  rw [strides1_succ_pos _ _ _ _ _ _ _ hL, if_neg (not_lt.mpr hle)]
  rw [show L - L = 0 by ring,
    strides1_nonpos _ _ f _ _ _ _ (by norm_num)]

/-- A segment longer than the current stride peels one full stride and
continues as the walk resumed at the stride boundary — the resumed state is
again a fresh `locate`, which is the phase-continuity invariant. -/
theorem stridesAt_big (dash : List ℚ) (scale offset t L : ℚ) (f : ℕ)
    (hpos : ∀ d ∈ dash, 0 < d) (hne : dash ≠ []) (hs : 0 < scale)
    (hto : 0 ≤ t + offset)
    (hgt : L > getD dash (locate (mkVecCfg dash scale offset) t).1 * scale
      - (locate (mkVecCfg dash scale offset) t).2) :
    stridesAt (mkVecCfg dash scale offset) (f + 1) t L
      = ((decide ((locate (mkVecCfg dash scale offset) t).1 % 2 = 0),
            t + (getD dash (locate (mkVecCfg dash scale offset) t).1 * scale
              - (locate (mkVecCfg dash scale offset) t).2))
          :: (stridesAt (mkVecCfg dash scale offset) f
              (t + (getD dash (locate (mkVecCfg dash scale offset) t).1 * scale
                - (locate (mkVecCfg dash scale offset) t).2))
              (L - (getD dash (locate (mkVecCfg dash scale offset) t).1 * scale
                - (locate (mkVecCfg dash scale offset) t).2))).1,
         (stridesAt (mkVecCfg dash scale offset) f
            (t + (getD dash (locate (mkVecCfg dash scale offset) t).1 * scale
              - (locate (mkVecCfg dash scale offset) t).2))
            (L - (getD dash (locate (mkVecCfg dash scale offset) t).1 * scale
              - (locate (mkVecCfg dash scale offset) t).2))).2) := by
  obtain ⟨k, hk, heq, hlo, hhi⟩ := locate_bounds dash scale offset t hpos hne hs hto
  have hsize : 0 < getD dash (locate (mkVecCfg dash scale offset) t).1 * scale
      - (locate (mkVecCfg dash scale offset) t).2 := by
    rw [heq]; dsimp only; nlinarith [hhi]
  have hL : 0 < L := lt_trans hsize hgt
  unfold stridesAt
  simp only [mkVecCfg_dash, mkVecCfg_scale]
  rw [strides1_succ_pos _ _ _ _ _ _ _ hL, if_pos hgt]
  have hstep := locate_step_full dash scale offset t hpos hne hs hto
  rw [hstep]

end DashedLine

namespace DashedLine

/-- Unfolding of the boundary-merge. -/
theorem mergeAdj_cons_cons (a b : Bool × ℚ) (l : List (Bool × ℚ)) :
    mergeAdj (a :: b :: l)
      = if a.1 = b.1 then mergeAdj (b :: l) else a :: mergeAdj (b :: l) := by
  rw [mergeAdj]

/-- Merging preserves the parity of the leading stride. -/
theorem mergeAdj_head_parity :
    ∀ (l : List (Bool × ℚ)) (a : Bool × ℚ),
      ∃ c cs, mergeAdj (a :: l) = c :: cs ∧ c.1 = a.1 := by
  intro l
  induction l with
  | nil => intro a; exact ⟨a, [], rfl, rfl⟩
  | cons b rest ih =>
    intro a
    by_cases hab : a.1 = b.1
    · obtain ⟨c, cs, h1, h2⟩ := ih b
      exact ⟨c, cs, by rw [mergeAdj_cons_cons, if_pos hab]; exact h1,
        by rw [h2, hab]⟩
    · exact ⟨a, mergeAdj (b :: rest),
        by rw [mergeAdj_cons_cons, if_neg hab], rfl⟩

/-- Boundary sets are preserved when a tail is replaced by one with the
same boundaries and leading parity. -/
theorem mergeAdj_cons_congr (c : Bool × ℚ) (A B : List (Bool × ℚ))
    (hAB : A = [] ↔ B = [])
    (hpar : ∀ a b, A.head? = some a → B.head? = some b → a.1 = b.1)
    (heq : mergeAdj A = mergeAdj B) :
    mergeAdj (c :: A) = mergeAdj (c :: B) := by
  cases A with
  | nil =>
    cases B with
    | nil => rfl
    | cons b B' => exact absurd (hAB.mp rfl) (List.cons_ne_nil b B')
  | cons a A' =>
    cases B with
    | nil => exact absurd (hAB.mpr rfl) (List.cons_ne_nil a A')
    | cons b B' =>
      have hab : a.1 = b.1 := hpar a b rfl rfl
      rw [mergeAdj_cons_cons, mergeAdj_cons_cons, hab]
      by_cases hca : c.1 = b.1
      · rw [if_pos hca, if_pos hca]
        exact heq
      · rw [if_neg hca, if_neg hca, heq]

/-- Boundary sets are preserved under replacing a suffix by one with the
same boundaries and leading parity. -/
theorem mergeAdj_append_congr :
    ∀ (A B1 B2 : List (Bool × ℚ)), (B1 = [] ↔ B2 = []) →
      (∀ b1 b2, B1.head? = some b1 → B2.head? = some b2 → b1.1 = b2.1) →
      mergeAdj B1 = mergeAdj B2 → mergeAdj (A ++ B1) = mergeAdj (A ++ B2) := by
  intro A
  induction A with
  | nil => intro B1 B2 _ _ h; exact h
  | cons a A' ih =>
    intro B1 B2 hne hpar heq
    simp only [List.cons_append]
    apply mergeAdj_cons_congr
    · cases A' with
      | nil => simpa using hne
      | cons x xs => simp
    · intro b1 b2 h1 h2
      cases A' with
      | nil =>
        simp only [List.nil_append] at h1 h2
        exact hpar b1 b2 h1 h2
      | cons x xs =>
        simp only [List.cons_append, List.head?_cons] at h1 h2
        rw [← Option.some_inj.mp h1, ← Option.some_inj.mp h2]
    · exact ih B1 B2 hne hpar heq

end DashedLine

namespace DashedLine

/-- Two completed walks of a segment agree whatever their fuels. -/
theorem stridesAt_complete_eq (cfg : DLConfig) (f f' : ℕ) (t L : ℚ)
    (h : (stridesAt cfg f t L).2 = true) (h' : (stridesAt cfg f' t L).2 = true) :
    stridesAt cfg f t L = stridesAt cfg f' t L :=
  strides1_complete_eq cfg.dash cfg.scale f f' _ _ t L h h'

/-- A completed walk is unchanged by raising the fuel. -/
theorem stridesAt_mono (cfg : DLConfig) (f f' : ℕ) (hle : f ≤ f') (t L : ℚ)
    (h : (stridesAt cfg f t L).2 = true) :
    stridesAt cfg f' t L = stridesAt cfg f t L :=
  strides1_mono cfg.dash cfg.scale f f' hle _ _ t L h

/-- The first stride of a walk carries the parity of the located segment. -/
theorem stridesAt_head_parity (cfg : DLConfig) (f : ℕ) (t L : ℚ) (hL : 0 < L)
    (h : (stridesAt cfg f t L).2 = true) :
    ∃ v cs, (stridesAt cfg f t L).1
      = (decide ((locate cfg t).1 % 2 = 0), v) :: cs := by
  cases f with
  | zero => simp [stridesAt, strides1] at h
  | succ n =>
    unfold stridesAt
    rw [strides1_succ_pos _ _ _ _ _ _ _ hL]
    exact ⟨_, _, rfl⟩

end DashedLine

namespace DashedLine

set_option maxHeartbeats 1000000 in
/-- Phase continuity, arc-length core: walking `L1` and then `L2` from the
accumulated distance reached (each walk resuming its phase through a fresh
`locate`) produces exactly the draw/gap boundary distances of one walk of
`L1 + L2` — splitting a segment never moves a boundary, because the
resumed `locate` continues the phase where the previous walk stopped. -/
theorem stridesAt_comp (dash : List ℚ) (scale offset : ℚ)
    (hpos : ∀ d ∈ dash, 0 < d) (hne : dash ≠ []) (hs : 0 < scale)
    (ho : 0 ≤ offset) :
    ∀ (f1 : ℕ) (t L1 L2 : ℚ) (f2 f3 : ℕ), 0 ≤ t → 0 < L1 → 0 < L2 →
      (stridesAt (mkVecCfg dash scale offset) f1 t L1).2 = true →
      (stridesAt (mkVecCfg dash scale offset) f2 (t + L1) L2).2 = true →
      (stridesAt (mkVecCfg dash scale offset) f3 t (L1 + L2)).2 = true →
      mergeAdj ((stridesAt (mkVecCfg dash scale offset) f1 t L1).1
          ++ (stridesAt (mkVecCfg dash scale offset) f2 (t + L1) L2).1)
        = mergeAdj ((stridesAt (mkVecCfg dash scale offset) f3 t (L1 + L2)).1) := by
  intro f1
  induction f1 with
  | zero => intro t L1 L2 f2 f3 ht hL1 hL2 h1; simp [stridesAt, strides1] at h1
  | succ n ih =>
    intro t L1 L2 f2 f3 ht hL1 hL2 h1 h2 h3
    have hto : (0:ℚ) ≤ t + offset := by linarith
    obtain ⟨k, hk, heq, hlo, hhi⟩ := locate_bounds dash scale offset t hpos hne hs hto
    have hsize : 0 < getD dash (locate (mkVecCfg dash scale offset) t).1 * scale
        - (locate (mkVecCfg dash scale offset) t).2 := by
      rw [heq]; dsimp only; nlinarith [hhi]
    rcases lt_trichotomy L1 (getD dash (locate (mkVecCfg dash scale offset) t).1 * scale
        - (locate (mkVecCfg dash scale offset) t).2) with hcase | hcase | hcase
    · -- L1 strictly inside the current stride
      have hsm := stridesAt_small dash scale offset t L1 0 hL1 hcase.le
      have hc2 : (stridesAt (mkVecCfg dash scale offset) 2 t L1).2 = true := by
        rw [hsm]
      have hw1 := (stridesAt_complete_eq _ (n+1) 2 t L1 h1 hc2).trans hsm
      have hstep := locate_step_partial dash scale offset t L1 hpos hne hs hto hL1.le
        (by rw [heq]; dsimp only; rw [heq] at hcase; dsimp only at hcase; linarith)
      have hsz2 : getD dash (locate (mkVecCfg dash scale offset) (t + L1)).1 * scale
          - (locate (mkVecCfg dash scale offset) (t + L1)).2
          = (getD dash (locate (mkVecCfg dash scale offset) t).1 * scale
            - (locate (mkVecCfg dash scale offset) t).2) - L1 := by
        rw [hstep]; dsimp only; ring
      rcases le_or_lt L2 ((getD dash (locate (mkVecCfg dash scale offset) t).1 * scale
          - (locate (mkVecCfg dash scale offset) t).2) - L1) with hsub | hsub
      · -- both segments stay within the same stride
        have hsm2 := stridesAt_small dash scale offset (t + L1) L2 0 hL2
          (by rw [hsz2]; exact hsub)
        rw [hstep] at hsm2
        dsimp only at hsm2
        have hw2 := (stridesAt_complete_eq _ f2 2 (t + L1) L2 h2 (by rw [hsm2])).trans hsm2
        have hsm3 := stridesAt_small dash scale offset t (L1 + L2) 0 (by linarith)
          (by linarith)
        have hw3 := (stridesAt_complete_eq _ f3 2 t (L1 + L2) h3 (by rw [hsm3])).trans hsm3
        rw [hw1, hw2, hw3]
        dsimp only
        rw [List.singleton_append, mergeAdj_cons_cons, if_pos rfl,
          show t + L1 + L2 = t + (L1 + L2) by ring]
      · -- the pair crosses into the next stride exactly as the single walk does
        have hF2 : f2 ≤ f2 + f3 + n + 1 := by omega
        have hF3 : f3 ≤ f2 + f3 + n + 1 := by omega
        have hw2F := stridesAt_mono _ f2 (f2 + f3 + n + 1) hF2 (t + L1) L2 h2
        have hw3F := stridesAt_mono _ f3 (f2 + f3 + n + 1) hF3 t (L1 + L2) h3
        have hbig2 := stridesAt_big dash scale offset (t + L1) L2 (f2 + f3 + n)
          hpos hne hs (by linarith) (by rw [hsz2]; exact hsub)
        have hbig3 := stridesAt_big dash scale offset t (L1 + L2) (f2 + f3 + n)
          hpos hne hs hto (by linarith)
        rw [hstep] at hbig2
        dsimp only at hbig2
        rw [show t + L1 + (getD dash (locate (mkVecCfg dash scale offset) t).1 * scale
            - ((locate (mkVecCfg dash scale offset) t).2 + L1))
          = t + (getD dash (locate (mkVecCfg dash scale offset) t).1 * scale
            - (locate (mkVecCfg dash scale offset) t).2) by ring,
          show L2 - (getD dash (locate (mkVecCfg dash scale offset) t).1 * scale
            - ((locate (mkVecCfg dash scale offset) t).2 + L1))
          = L1 + L2 - (getD dash (locate (mkVecCfg dash scale offset) t).1 * scale
            - (locate (mkVecCfg dash scale offset) t).2) by ring] at hbig2
        rw [hw1, ← hw2F, ← hw3F, hbig2, hbig3]
        dsimp only
        rw [List.singleton_append, mergeAdj_cons_cons, if_pos rfl]
    · -- L1 ends exactly on the stride boundary
      have hsm := stridesAt_small dash scale offset t L1 0 hL1 hcase.le
      have hc2 : (stridesAt (mkVecCfg dash scale offset) 2 t L1).2 = true := by
        rw [hsm]
      have hw1 := (stridesAt_complete_eq _ (n+1) 2 t L1 h1 hc2).trans hsm
      have hstepf := locate_step_full dash scale offset t hpos hne hs hto
      have hF2 : f2 ≤ f2 + f3 := by omega
      have hF3 : f3 ≤ f2 + f3 + 1 := by omega
      have hw2F := stridesAt_mono _ f2 (f2 + f3) hF2 (t + L1) L2 h2
      have hw3F := stridesAt_mono _ f3 (f2 + f3 + 1) hF3 t (L1 + L2) h3
      have hbig3 := stridesAt_big dash scale offset t (L1 + L2) (f2 + f3)
        hpos hne hs hto (by linarith)
      rw [show t + (getD dash (locate (mkVecCfg dash scale offset) t).1 * scale
          - (locate (mkVecCfg dash scale offset) t).2) = t + L1 by rw [← hcase],
        show L1 + L2 - (getD dash (locate (mkVecCfg dash scale offset) t).1 * scale
          - (locate (mkVecCfg dash scale offset) t).2) = L2 by rw [← hcase]; ring]
        at hbig3
      rw [hw1, ← hw3F, hbig3, ← hw2F]
      dsimp only
      rw [List.singleton_append]
    · -- L1 spans several strides: peel one stride and induct
      have hbig1 := stridesAt_big dash scale offset t L1 n hpos hne hs hto hcase
      have h1' : (stridesAt (mkVecCfg dash scale offset) n
          (t + (getD dash (locate (mkVecCfg dash scale offset) t).1 * scale
            - (locate (mkVecCfg dash scale offset) t).2))
          (L1 - (getD dash (locate (mkVecCfg dash scale offset) t).1 * scale
            - (locate (mkVecCfg dash scale offset) t).2))).2 = true := by
        rw [hbig1] at h1
        exact h1
      have hF2 : f2 ≤ f2 + f3 + n := by omega
      have hF3 : f3 ≤ f2 + f3 + n + 1 := by omega
      have hw2F := stridesAt_mono _ f2 (f2 + f3 + n) hF2 (t + L1) L2 h2
      have hw3F := stridesAt_mono _ f3 (f2 + f3 + n + 1) hF3 t (L1 + L2) h3
      have hbig3 := stridesAt_big dash scale offset t (L1 + L2) (f2 + f3 + n)
        hpos hne hs hto (by linarith)
      have h3' : (stridesAt (mkVecCfg dash scale offset) (f2 + f3 + n)
          (t + (getD dash (locate (mkVecCfg dash scale offset) t).1 * scale
            - (locate (mkVecCfg dash scale offset) t).2))
          (L1 + L2 - (getD dash (locate (mkVecCfg dash scale offset) t).1 * scale
            - (locate (mkVecCfg dash scale offset) t).2))).2 = true := by
        have heq3 := hw3F.symm.trans hbig3
        rw [heq3] at h3
        exact h3
      have hw2F' : (stridesAt (mkVecCfg dash scale offset) (f2 + f3 + n)
          ((t + (getD dash (locate (mkVecCfg dash scale offset) t).1 * scale
            - (locate (mkVecCfg dash scale offset) t).2))
            + (L1 - (getD dash (locate (mkVecCfg dash scale offset) t).1 * scale
              - (locate (mkVecCfg dash scale offset) t).2))) L2).2 = true := by
        rw [show (t + (getD dash (locate (mkVecCfg dash scale offset) t).1 * scale
            - (locate (mkVecCfg dash scale offset) t).2))
            + (L1 - (getD dash (locate (mkVecCfg dash scale offset) t).1 * scale
              - (locate (mkVecCfg dash scale offset) t).2)) = t + L1 by ring,
          hw2F, ← hw2F]
        rw [hw2F]
        exact h2
      have h3'' : (stridesAt (mkVecCfg dash scale offset) (f2 + f3 + n)
          (t + (getD dash (locate (mkVecCfg dash scale offset) t).1 * scale
            - (locate (mkVecCfg dash scale offset) t).2))
          ((L1 - (getD dash (locate (mkVecCfg dash scale offset) t).1 * scale
            - (locate (mkVecCfg dash scale offset) t).2)) + L2)).2 = true := by
        rw [show (L1 - (getD dash (locate (mkVecCfg dash scale offset) t).1 * scale
            - (locate (mkVecCfg dash scale offset) t).2)) + L2
          = L1 + L2 - (getD dash (locate (mkVecCfg dash scale offset) t).1 * scale
            - (locate (mkVecCfg dash scale offset) t).2) by ring]
        exact h3'
      have hihm := ih (t + (getD dash (locate (mkVecCfg dash scale offset) t).1 * scale
            - (locate (mkVecCfg dash scale offset) t).2))
        (L1 - (getD dash (locate (mkVecCfg dash scale offset) t).1 * scale
            - (locate (mkVecCfg dash scale offset) t).2)) L2
        (f2 + f3 + n) (f2 + f3 + n)
        (by linarith) (by linarith) hL2 h1'
        (by rw [show (t + (getD dash (locate (mkVecCfg dash scale offset) t).1 * scale
            - (locate (mkVecCfg dash scale offset) t).2))
            + (L1 - (getD dash (locate (mkVecCfg dash scale offset) t).1 * scale
              - (locate (mkVecCfg dash scale offset) t).2)) = t + L1 by ring, hw2F]
            exact h2)
        h3''
      rw [show (t + (getD dash (locate (mkVecCfg dash scale offset) t).1 * scale
          - (locate (mkVecCfg dash scale offset) t).2))
          + (L1 - (getD dash (locate (mkVecCfg dash scale offset) t).1 * scale
            - (locate (mkVecCfg dash scale offset) t).2)) = t + L1 by ring, hw2F]
        at hihm
      rw [hbig1, ← hw3F, hbig3]
      dsimp only
      rw [List.cons_append]
      apply mergeAdj_cons_congr
      · obtain ⟨v1, cs1, hh1⟩ := stridesAt_head_parity _ n _ _ (by linarith) h1'
        obtain ⟨v3, cs3, hh3⟩ := stridesAt_head_parity _ (f2 + f3 + n) _ _
          (by linarith) h3'
        rw [hh1, hh3]
        simp
      · intro b1 b2 hb1 hb2
        obtain ⟨v1, cs1, hh1⟩ := stridesAt_head_parity _ n _ _ (by linarith) h1'
        obtain ⟨v3, cs3, hh3⟩ := stridesAt_head_parity _ (f2 + f3 + n) _ _
          (by linarith) h3'
        rw [hh1] at hb1
        rw [hh3] at hb2
        simp only [List.cons_append, List.head?_cons] at hb1 hb2
        rw [← Option.some_inj.mp hb1, ← Option.some_inj.mp hb2]
      · rw [show L1 + L2 - (getD dash (locate (mkVecCfg dash scale offset) t).1 * scale
            - (locate (mkVecCfg dash scale offset) t).2)
          = (L1 - (getD dash (locate (mkVecCfg dash scale offset) t).1 * scale
            - (locate (mkVecCfg dash scale offset) t).2)) + L2 by ring]
        exact hihm

end DashedLine

namespace DashedLine

/-- A completed walk of a positive segment used at least one fuel step. -/
theorem stridesAt_complete_pos_fuel (cfg : DLConfig) (f : ℕ) (t L : ℚ)
    (hL : 0 < L) (h : (stridesAt cfg f t L).2 = true) : 1 ≤ f := by
  cases f with
  | zero => simp [stridesAt, strides1] at h
  | succ n => omega

set_option maxHeartbeats 1000000 in
/-- If two chained walks complete, the combined single walk completes for
some fuel. -/
theorem stridesAt_comp_complete (dash : List ℚ) (scale offset : ℚ)
    (hpos : ∀ d ∈ dash, 0 < d) (hne : dash ≠ []) (hs : 0 < scale)
    (ho : 0 ≤ offset) :
    ∀ (f1 : ℕ) (t L1 L2 : ℚ) (f2 : ℕ), 0 ≤ t → 0 < L1 → 0 < L2 →
      (stridesAt (mkVecCfg dash scale offset) f1 t L1).2 = true →
      (stridesAt (mkVecCfg dash scale offset) f2 (t + L1) L2).2 = true →
      ∃ f3, (stridesAt (mkVecCfg dash scale offset) f3 t (L1 + L2)).2 = true := by
  intro f1
  induction f1 with
  | zero => intro t L1 L2 f2 ht hL1 hL2 h1; simp [stridesAt, strides1] at h1
  | succ n ih =>
    intro t L1 L2 f2 ht hL1 hL2 h1 h2
    have hto : (0:ℚ) ≤ t + offset := by linarith
    obtain ⟨k, hk, heq, hlo, hhi⟩ := locate_bounds dash scale offset t hpos hne hs hto
    have hsize : 0 < getD dash (locate (mkVecCfg dash scale offset) t).1 * scale
        - (locate (mkVecCfg dash scale offset) t).2 := by
      rw [heq]; dsimp only; nlinarith [hhi]
    rcases lt_trichotomy L1 (getD dash (locate (mkVecCfg dash scale offset) t).1 * scale
        - (locate (mkVecCfg dash scale offset) t).2) with hcase | hcase | hcase
    · have hstep := locate_step_partial dash scale offset t L1 hpos hne hs hto hL1.le
        (by rw [heq]; dsimp only; rw [heq] at hcase; dsimp only at hcase; linarith)
      rcases le_or_lt (L1 + L2) (getD dash (locate (mkVecCfg dash scale offset) t).1 * scale
          - (locate (mkVecCfg dash scale offset) t).2) with hsub | hsub
      · exact ⟨2, by rw [stridesAt_small dash scale offset t (L1 + L2) 0
          (by linarith) (by linarith)]⟩
      · -- the combined walk crosses the stride exactly where walk2 does
        have hf2pos := stridesAt_complete_pos_fuel _ f2 (t + L1) L2 hL2 h2
        obtain ⟨m, hm⟩ : ∃ m, f2 = m + 1 := ⟨f2 - 1, by omega⟩
        have hbig2 := stridesAt_big dash scale offset (t + L1) L2 m
          hpos hne hs (by linarith)
          (by rw [hstep]; dsimp only
              rw [heq] at hsub ⊢; dsimp only at hsub ⊢; linarith)
        rw [hm, hbig2] at h2
        have hbig3 := stridesAt_big dash scale offset t (L1 + L2) m
          hpos hne hs hto (by linarith)
        refine ⟨m + 1, ?_⟩
        rw [hbig3]
        dsimp only
        rw [hstep] at h2
        dsimp only at h2
        rw [show t + L1 + (getD dash (locate (mkVecCfg dash scale offset) t).1 * scale
            - ((locate (mkVecCfg dash scale offset) t).2 + L1))
          = t + (getD dash (locate (mkVecCfg dash scale offset) t).1 * scale
            - (locate (mkVecCfg dash scale offset) t).2) by ring,
          show L2 - (getD dash (locate (mkVecCfg dash scale offset) t).1 * scale
            - ((locate (mkVecCfg dash scale offset) t).2 + L1))
          = L1 + L2 - (getD dash (locate (mkVecCfg dash scale offset) t).1 * scale
            - (locate (mkVecCfg dash scale offset) t).2) by ring] at h2
        exact h2
    · have hstepf := locate_step_full dash scale offset t hpos hne hs hto
      have hbig3 := stridesAt_big dash scale offset t (L1 + L2) f2
        hpos hne hs hto (by linarith)
      refine ⟨f2 + 1, ?_⟩
      rw [hbig3]
      dsimp only
      rw [show t + (getD dash (locate (mkVecCfg dash scale offset) t).1 * scale
          - (locate (mkVecCfg dash scale offset) t).2) = t + L1 by rw [← hcase],
        show L1 + L2 - (getD dash (locate (mkVecCfg dash scale offset) t).1 * scale
          - (locate (mkVecCfg dash scale offset) t).2) = L2 by rw [← hcase]; ring]
      exact h2
    · have hbig1 := stridesAt_big dash scale offset t L1 n hpos hne hs hto hcase
      have h1' : (stridesAt (mkVecCfg dash scale offset) n
          (t + (getD dash (locate (mkVecCfg dash scale offset) t).1 * scale
            - (locate (mkVecCfg dash scale offset) t).2))
          (L1 - (getD dash (locate (mkVecCfg dash scale offset) t).1 * scale
            - (locate (mkVecCfg dash scale offset) t).2))).2 = true := by
        rw [hbig1] at h1
        exact h1
      have h2' : (stridesAt (mkVecCfg dash scale offset) f2
          ((t + (getD dash (locate (mkVecCfg dash scale offset) t).1 * scale
            - (locate (mkVecCfg dash scale offset) t).2))
            + (L1 - (getD dash (locate (mkVecCfg dash scale offset) t).1 * scale
              - (locate (mkVecCfg dash scale offset) t).2))) L2).2 = true := by
        rw [show (t + (getD dash (locate (mkVecCfg dash scale offset) t).1 * scale
            - (locate (mkVecCfg dash scale offset) t).2))
            + (L1 - (getD dash (locate (mkVecCfg dash scale offset) t).1 * scale
              - (locate (mkVecCfg dash scale offset) t).2)) = t + L1 by ring]
        exact h2
      obtain ⟨g, hg⟩ := ih (t + (getD dash (locate (mkVecCfg dash scale offset) t).1 * scale
            - (locate (mkVecCfg dash scale offset) t).2))
        (L1 - (getD dash (locate (mkVecCfg dash scale offset) t).1 * scale
            - (locate (mkVecCfg dash scale offset) t).2)) L2 f2
        (by linarith) (by linarith) hL2 h1' h2'
      have hbig3 := stridesAt_big dash scale offset t (L1 + L2) g
        hpos hne hs hto (by linarith)
      refine ⟨g + 1, ?_⟩
      rw [hbig3]
      dsimp only
      rw [show L1 + L2 - (getD dash (locate (mkVecCfg dash scale offset) t).1 * scale
            - (locate (mkVecCfg dash scale offset) t).2)
          = (L1 - (getD dash (locate (mkVecCfg dash scale offset) t).1 * scale
            - (locate (mkVecCfg dash scale offset) t).2)) + L2 by ring]
      exact hg

end DashedLine

namespace DashedLine

/-- One unfolding of the planar walk without the closing flag. -/
theorem strideWalk_open_pos (dash : List ℚ) (scale : ℚ) (stx sty cos sin : ℚ)
    (f : ℕ) (x0 y0 : ℚ) (i : ℕ) (s r : ℚ) (hr : r > 0) :
    strideWalk dash scale false stx sty cos sin (f + 1) x0 y0 i s r
      = ((if i % 2 = 0
            then GCall.lineTo
              (x0 + cos * if r > getD dash i * scale - s then getD dash i * scale - s else r)
              (y0 + sin * if r > getD dash i * scale - s then getD dash i * scale - s else r)
            else GCall.moveTo
              (x0 + cos * if r > getD dash i * scale - s then getD dash i * scale - s else r)
              (y0 + sin * if r > getD dash i * scale - s then getD dash i * scale - s else r))
          :: (strideWalk dash scale false stx sty cos sin f
              (x0 + cos * if r > getD dash i * scale - s then getD dash i * scale - s else r)
              (y0 + sin * if r > getD dash i * scale - s then getD dash i * scale - s else r)
              (nextIdx dash.length i) 0
              (r - if r > getD dash i * scale - s then getD dash i * scale - s else r)).1,
         (strideWalk dash scale false stx sty cos sin f
            (x0 + cos * if r > getD dash i * scale - s then getD dash i * scale - s else r)
            (y0 + sin * if r > getD dash i * scale - s then getD dash i * scale - s else r)
            (nextIdx dash.length i) 0
            (r - if r > getD dash i * scale - s then getD dash i * scale - s else r)).2) := by
  rw [strideWalk, if_pos hr]
  simp only [Bool.false_and, Bool.false_eq_true, if_false]

/-- The planar walk is complete and silent when nothing remains. -/
theorem strideWalk_open_nonpos (dash : List ℚ) (scale : ℚ) (stx sty cos sin : ℚ)
    (f : ℕ) (x0 y0 : ℚ) (i : ℕ) (s r : ℚ) (hr : ¬ r > 0) :
    strideWalk dash scale false stx sty cos sin (f + 1) x0 y0 i s r = ([], true) := by
  rw [strideWalk, if_neg hr]

/-- The planar stride walk is the image of the arc-length walk under the
ray embedding: positions are `cursor + direction * traveled`. -/
theorem strideWalk_open_sim (dash : List ℚ) (scale : ℚ) (stx sty cx cy cos sin : ℚ) :
    ∀ (f : ℕ) (i : ℕ) (s t0 t r : ℚ),
      strideWalk dash scale false stx sty cos sin f
          (cx + cos * (t - t0)) (cy + sin * (t - t0)) i s r
        = (((strides1 dash scale f i s t r).1).map (toCall cx cy cos sin t0),
           (strides1 dash scale f i s t r).2) := by
  intro f
  induction f with
  | zero => intro i s t0 t r; rfl
  | succ n ih =>
    intro i s t0 t r
    by_cases hr : r > 0
    · rw [strideWalk_open_pos dash scale stx sty cos sin n _ _ i s r hr,
        strides1_succ_pos dash scale n i s t r hr]
      have hx : cx + cos * (t - t0)
            + cos * (if r > getD dash i * scale - s then getD dash i * scale - s else r)
          = cx + cos * ((t + (if r > getD dash i * scale - s
              then getD dash i * scale - s else r)) - t0) := by ring
      have hy : cy + sin * (t - t0)
            + sin * (if r > getD dash i * scale - s then getD dash i * scale - s else r)
          = cy + sin * ((t + (if r > getD dash i * scale - s
              then getD dash i * scale - s else r)) - t0) := by ring
      rw [hx, hy, ih (nextIdx dash.length i) 0 t0 (t + (if r > getD dash i * scale - s
        then getD dash i * scale - s else r)) (r - (if r > getD dash i * scale - s
        then getD dash i * scale - s else r))]
      by_cases hpar : i % 2 = 0 <;> simp [hpar, toCall]
    · rw [strideWalk_open_nonpos dash scale stx sty cos sin n _ _ i s r hr,
        strides1_nonpos dash scale n i s t r hr]
      rfl

end DashedLine

namespace DashedLine

/-- Projecting an embedded stride back to arc length is the identity for a
unit direction. -/
theorem distAlong_toCall (cx cy cos sin base : ℚ) (hu : cos ^ 2 + sin ^ 2 = 1)
    (e : Bool × ℚ) :
    distAlong cx cy cos sin base (toCall cx cy cos sin base e) = e := by
  obtain ⟨b, v⟩ := e
  cases b
  · simp only [toCall, Bool.false_eq_true, if_false, distAlong]
    refine Prod.ext rfl ?_
    dsimp only
    linear_combination (v - base) * hu
  · simp only [toCall, if_true, distAlong]
    refine Prod.ext rfl ?_
    dsimp only
    linear_combination (v - base) * hu

/-- List version of `distAlong_toCall`. -/
theorem map_distAlong_toCall (cx cy cos sin base : ℚ) (hu : cos ^ 2 + sin ^ 2 = 1) :
    ∀ l : List (Bool × ℚ),
      (l.map (toCall cx cy cos sin base)).map (distAlong cx cy cos sin base) = l := by
  intro l
  induction l with
  | nil => rfl
  | cons a rest ih =>
    simp only [List.map_cons, distAlong_toCall cx cy cos sin base hu a, ih]

set_option maxHeartbeats 1000000 in
/-- Chaining four segments of lengths `w, h, w, h` (a rectangle traversal)
produces the same draw/gap boundary distances as one walk of the whole
perimeter. -/
theorem four_segment_boundaries (dash : List ℚ) (scale offset : ℚ)
    (hpos : ∀ d ∈ dash, 0 < d) (hne : dash ≠ []) (hs : 0 < scale)
    (ho : 0 ≤ offset) (w h : ℚ) (hw : 0 < w) (hh : 0 < h)
    (f1 f2 f3 f4 fL : ℕ)
    (hc1 : (stridesAt (mkVecCfg dash scale offset) f1 0 w).2 = true)
    (hc2 : (stridesAt (mkVecCfg dash scale offset) f2 w h).2 = true)
    (hc3 : (stridesAt (mkVecCfg dash scale offset) f3 (w + h) w).2 = true)
    (hc4 : (stridesAt (mkVecCfg dash scale offset) f4 (w + h + w) h).2 = true)
    (hcL : (stridesAt (mkVecCfg dash scale offset) fL 0 (w + h + w + h)).2 = true) :
    mergeAdj ((stridesAt (mkVecCfg dash scale offset) f1 0 w).1
        ++ (stridesAt (mkVecCfg dash scale offset) f2 w h).1
        ++ (stridesAt (mkVecCfg dash scale offset) f3 (w + h) w).1
        ++ (stridesAt (mkVecCfg dash scale offset) f4 (w + h + w) h).1)
      = mergeAdj ((stridesAt (mkVecCfg dash scale offset) fL 0 (w + h + w + h)).1) := by
  have hc4' : (stridesAt (mkVecCfg dash scale offset) f4 ((w + h) + w) h).2 = true := hc4
  -- S3 ++ S4 composes to a (w + h)-length walk starting at w + h
  obtain ⟨F34, hF34⟩ := stridesAt_comp_complete dash scale offset hpos hne hs ho
    f3 (w + h) w h f4 (by linarith) hw hh hc3 hc4'
  have e34 := stridesAt_comp dash scale offset hpos hne hs ho f3 (w + h) w h f4 F34
    (by linarith) hw hh hc3 hc4' hF34
  -- S2 ++ S34 composes to a (h + (w + h))-length walk starting at w
  have hF34' : (stridesAt (mkVecCfg dash scale offset) F34 (w + h) (w + h)).2 = true := hF34
  obtain ⟨F234, hF234⟩ := stridesAt_comp_complete dash scale offset hpos hne hs ho
    f2 w h (w + h) F34 (by linarith) hh (by linarith) hc2 hF34'
  have e234 := stridesAt_comp dash scale offset hpos hne hs ho f2 w h (w + h) F34 F234
    (by linarith) hh (by linarith) hc2 hF34' hF234
  -- S1 ++ S234 composes to the whole perimeter
  obtain ⟨FA, hFA⟩ := stridesAt_comp_complete dash scale offset hpos hne hs ho
    f1 0 w (h + (w + h)) F234 le_rfl hw (by linarith) hc1
    (by rw [show (0:ℚ) + w = w by ring]; exact hF234)
  have eA := stridesAt_comp dash scale offset hpos hne hs ho f1 0 w (h + (w + h)) F234 FA
    le_rfl hw (by linarith) hc1
    (by rw [show (0:ℚ) + w = w by ring]; exact hF234) hFA
  -- heads needed for the congruences
  obtain ⟨v3, cs3, hh3⟩ := stridesAt_head_parity _ f3 (w + h) w hw hc3
  obtain ⟨v34, cs34, hh34⟩ := stridesAt_head_parity _ F34 (w + h) (w + h)
    (by linarith) hF34
  obtain ⟨v2, cs2, hh2⟩ := stridesAt_head_parity _ f2 w h hh hc2
  obtain ⟨v234, cs234, hh234⟩ := stridesAt_head_parity _ F234 w (h + (w + h))
    (by linarith) hF234
  rw [List.append_assoc, List.append_assoc]
  calc mergeAdj ((stridesAt (mkVecCfg dash scale offset) f1 0 w).1
        ++ ((stridesAt (mkVecCfg dash scale offset) f2 w h).1
          ++ ((stridesAt (mkVecCfg dash scale offset) f3 (w + h) w).1
            ++ (stridesAt (mkVecCfg dash scale offset) f4 (w + h + w) h).1)))
      = mergeAdj ((stridesAt (mkVecCfg dash scale offset) f1 0 w).1
        ++ ((stridesAt (mkVecCfg dash scale offset) f2 w h).1
          ++ (stridesAt (mkVecCfg dash scale offset) F34 (w + h) (w + h)).1)) := by
        apply mergeAdj_append_congr
        · constructor
          · intro hx
            rw [List.append_eq_nil] at hx
            rw [hh2] at hx
            simp at hx
          · intro hx
            rw [List.append_eq_nil] at hx
            rw [hh2] at hx
            simp at hx
        · intro b1 b2 hb1 hb2
          rw [hh2] at hb1 hb2
          simp only [List.cons_append, List.head?_cons] at hb1 hb2
          rw [← Option.some_inj.mp hb1, ← Option.some_inj.mp hb2]
        · apply mergeAdj_append_congr
          · constructor
            · intro hx
              rw [List.append_eq_nil] at hx
              rw [hh3] at hx
              simp at hx
            · intro hx
              rw [hh34] at hx
              simp at hx
          · intro b1 b2 hb1 hb2
            rw [hh3] at hb1
            rw [hh34] at hb2
            simp only [List.cons_append, List.head?_cons] at hb1 hb2
            rw [← Option.some_inj.mp hb1, ← Option.some_inj.mp hb2]
          · exact e34
    _ = mergeAdj ((stridesAt (mkVecCfg dash scale offset) f1 0 w).1
        ++ (stridesAt (mkVecCfg dash scale offset) F234 w (h + (w + h))).1) := by
        apply mergeAdj_append_congr
        · constructor
          · intro hx
            rw [List.append_eq_nil] at hx
            rw [hh2] at hx
            simp at hx
          · intro hx
            rw [hh234] at hx
            simp at hx
        · intro b1 b2 hb1 hb2
          rw [hh2] at hb1
          rw [hh234] at hb2
          simp only [List.cons_append, List.head?_cons] at hb1 hb2
          rw [← Option.some_inj.mp hb1, ← Option.some_inj.mp hb2]
        · exact e234
    _ = mergeAdj ((stridesAt (mkVecCfg dash scale offset) FA 0 (w + (h + (w + h)))).1) := by
        rw [show (0:ℚ) + w = w by ring] at eA
        exact eA
    _ = mergeAdj ((stridesAt (mkVecCfg dash scale offset) fL 0 (w + h + w + h)).1) := by
        have harg : w + (h + (w + h)) = w + h + w + h := by ring
        rw [harg] at hFA
        rw [harg]
        rw [stridesAt_complete_eq _ FA fL 0 (w + h + w + h) hFA hcL]

end DashedLine

namespace DashedLine

/-- The state update of `lineTo` (lines 238-239): add the segment length,
move the cursor, keep the subpath start. -/
theorem lineToM_fst (cfg : DLConfig) (f : ℕ) (st : DLState) (x y : ℚ) (cp : Bool) :
    (lineToM cfg f st x y cp).1
      = ⟨st.lineLength + distQ st.cx st.cy x y, x, y, st.startx, st.starty⟩ := rfl

/-- A vector-mode `lineTo` without the closing flag, along a segment of
exact rational length, emits exactly the strides of the arc-length walk
resumed at the tracer's accumulated length: projecting its emissions back
to arc length gives `stridesAt` at `st.lineLength`. -/
theorem lineToM_open_proj (dash : List ℚ) (scale offset : ℚ) (f : ℕ) (st : DLState)
    (x y L : ℚ) (hL : 0 < L)
    (hsq : (x - st.cx) ^ 2 + (y - st.cy) ^ 2 = L * L) :
    (lineToM (mkVecCfg dash scale offset) f st x y false).2.map
        (distAlong st.cx st.cy ((x - st.cx) / L) ((y - st.cy) / L) st.lineLength)
      = (stridesAt (mkVecCfg dash scale offset) f st.lineLength L).1 := by
  have hlen : distQ st.cx st.cy x y = L := distQ_eq_of_sq hsq hL.le
  have hu : ((x - st.cx) / L) ^ 2 + ((y - st.cy) / L) ^ 2 = 1 := by
    field_simp
    linear_combination hsq
  have hsim := strideWalk_open_sim dash scale st.startx st.starty st.cx st.cy
    ((x - st.cx) / L) ((y - st.cy) / L) f
    (locate (mkVecCfg dash scale offset) st.lineLength).1
    (locate (mkVecCfg dash scale offset) st.lineLength).2
    st.lineLength st.lineLength L
  rw [show st.lineLength - st.lineLength = 0 by ring] at hsim
  simp only [mul_zero, add_zero] at hsim
  simp only [lineToM, mkVecCfg_dash, mkVecCfg_scale, hlen, if_neg hL.ne',
    Bool.false_and]
  simp only [mkVecCfg]
  simp only [mkVecCfg] at hsim
  rw [hsim]
  simp only [Bool.false_eq_true, if_false]
  rw [map_distAlong_toCall st.cx st.cy ((x - st.cx) / L) ((y - st.cy) / L)
    st.lineLength hu]
  rfl

end DashedLine

namespace DashedLine

set_option maxHeartbeats 1000000 in
/-- C1: drawing an axis-aligned rectangle of sides `w`, `h` as four chained
`lineTo` calls in one subpath produces dash draw/gap boundaries at the same
accumulated distances along the path as one straight `lineTo` whose length
is the perimeter, for every positive dash pattern, positive scale and
nonnegative offset; and `lineTo` never resets `lineLength` within a
subpath — after the four calls it equals the perimeter. -/
theorem C1_phase_continuity (dash : List ℚ) (scale offset x y w h : ℚ) (f1 f2 f3 f4 fL : ℕ)
    (hpos : ∀ d ∈ dash, 0 < d) (hne : dash ≠ []) (hs : 0 < scale)
    (ho : 0 ≤ offset) (hw : 0 < w) (hh : 0 < h)
    (hc1 : (stridesAt (mkVecCfg dash scale offset) f1 0 w).2 = true)
    (hc2 : (stridesAt (mkVecCfg dash scale offset) f2 w h).2 = true)
    (hc3 : (stridesAt (mkVecCfg dash scale offset) f3 (w + h) w).2 = true)
    (hc4 : (stridesAt (mkVecCfg dash scale offset) f4 (w + h + w) h).2 = true)
    (hcL : (stridesAt (mkVecCfg dash scale offset) fL 0 (w + h + w + h)).2 = true) :
    (lineToM (mkVecCfg dash scale offset) f4 (lineToM (mkVecCfg dash scale offset) f3 (lineToM (mkVecCfg dash scale offset) f2 (lineToM (mkVecCfg dash scale offset) f1 (moveToM x y).1 (x + w) y false).1 (x + w) (y + h) false).1 x (y + h) false).1 x y false).1.lineLength = w + h + w + h
    ∧ mergeAdj (((lineToM (mkVecCfg dash scale offset) f1 (moveToM x y).1 (x + w) y false).2.map (distAlong x y 1 0 0))
        ++ ((lineToM (mkVecCfg dash scale offset) f2 (lineToM (mkVecCfg dash scale offset) f1 (moveToM x y).1 (x + w) y false).1 (x + w) (y + h) false).2.map (distAlong (x + w) y 0 1 w))
        ++ ((lineToM (mkVecCfg dash scale offset) f3 (lineToM (mkVecCfg dash scale offset) f2 (lineToM (mkVecCfg dash scale offset) f1 (moveToM x y).1 (x + w) y false).1 (x + w) (y + h) false).1 x (y + h) false).2.map (distAlong (x + w) (y + h) (-1) 0 (w + h)))
        ++ ((lineToM (mkVecCfg dash scale offset) f4 (lineToM (mkVecCfg dash scale offset) f3 (lineToM (mkVecCfg dash scale offset) f2 (lineToM (mkVecCfg dash scale offset) f1 (moveToM x y).1 (x + w) y false).1 (x + w) (y + h) false).1 x (y + h) false).1 x y false).2.map (distAlong x (y + h) 0 (-1) (w + h + w))))
      = mergeAdj ((lineToM (mkVecCfg dash scale offset) fL (moveToM x y).1 (x + (w + h + w + h)) y false).2.map (distAlong x y 1 0 0)) := by
  have hq1 : distQ x y (x + w) y = w := distQ_horiz x y w hw.le
  have hq2 : distQ (x + w) y (x + w) (y + h) = h := distQ_vert (x + w) y h hh.le
  have hq3 : distQ (x + w) (y + h) x (y + h) = w := by
    apply distQ_eq_of_sq ?_ hw.le
    ring
  have hq4 : distQ x (y + h) x y = h := by
    apply distQ_eq_of_sq ?_ hh.le
    ring
  have hst0 : (moveToM x y).1 = (⟨0, x, y, x, y⟩ : DLState) := rfl
  rw [hst0]
  have hst1 : (lineToM (mkVecCfg dash scale offset) f1 (⟨0, x, y, x, y⟩ : DLState) (x + w) y false).1 = (⟨w, x + w, y, x, y⟩ : DLState) := by
    rw [lineToM_fst]
    dsimp only
    rw [hq1, zero_add]
  rw [hst1]
  have hst2 : (lineToM (mkVecCfg dash scale offset) f2 (⟨w, x + w, y, x, y⟩ : DLState) (x + w) (y + h) false).1 = (⟨w + h, x + w, y + h, x, y⟩ : DLState) := by
    rw [lineToM_fst]
    dsimp only
    rw [hq2]
  rw [hst2]
  have hst3 : (lineToM (mkVecCfg dash scale offset) f3 (⟨w + h, x + w, y + h, x, y⟩ : DLState) x (y + h) false).1 = (⟨w + h + w, x, y + h, x, y⟩ : DLState) := by
    rw [lineToM_fst]
    dsimp only
    rw [hq3]
  rw [hst3]
  constructor
  · rw [lineToM_fst]
    dsimp only
    rw [hq4]
  · have hp1 := lineToM_open_proj dash scale offset f1 (⟨0, x, y, x, y⟩ : DLState) (x + w) y w hw
      (by show ((x + w) - x) ^ 2 + (y - y) ^ 2 = w * w; ring)
    dsimp only at hp1
    rw [show (x + w - x) / w = 1 by
        rw [show x + w - x = w by ring, div_self hw.ne'],
      show (y - y) / w = (0:ℚ) by rw [sub_self, zero_div]] at hp1
    have hp2 := lineToM_open_proj dash scale offset f2 (⟨w, x + w, y, x, y⟩ : DLState) (x + w) (y + h) h hh
      (by show ((x + w) - (x + w)) ^ 2 + ((y + h) - y) ^ 2 = h * h; ring)
    dsimp only at hp2
    rw [show (x + w - (x + w)) / h = (0:ℚ) by rw [sub_self, zero_div],
      show (y + h - y) / h = 1 by
        rw [show y + h - y = h by ring, div_self hh.ne']] at hp2
    have hp3 := lineToM_open_proj dash scale offset f3 (⟨w + h, x + w, y + h, x, y⟩ : DLState) x (y + h) w hw
      (by show (x - (x + w)) ^ 2 + ((y + h) - (y + h)) ^ 2 = w * w; ring)
    dsimp only at hp3
    rw [show (x - (x + w)) / w = (-1 : ℚ) by
        rw [show x - (x + w) = -w by ring, neg_div, div_self hw.ne'],
      show (y + h - (y + h)) / w = (0:ℚ) by rw [sub_self, zero_div]] at hp3
    have hp4 := lineToM_open_proj dash scale offset f4 (⟨w + h + w, x, y + h, x, y⟩ : DLState) x y h hh
      (by show (x - x) ^ 2 + (y - (y + h)) ^ 2 = h * h; ring)
    dsimp only at hp4
    rw [show (x - x) / h = (0:ℚ) by rw [sub_self, zero_div],
      show (y - (y + h)) / h = (-1 : ℚ) by
        rw [show y - (y + h) = -h by ring, neg_div, div_self hh.ne']] at hp4
    have hpL := lineToM_open_proj dash scale offset fL (⟨0, x, y, x, y⟩ : DLState)
      (x + (w + h + w + h)) y (w + h + w + h) (by linarith)
      (by show ((x + (w + h + w + h)) - x) ^ 2 + (y - y) ^ 2
            = (w + h + w + h) * (w + h + w + h)
          ring)
    dsimp only at hpL
    rw [show (x + (w + h + w + h) - x) / (w + h + w + h) = 1 by
        rw [show x + (w + h + w + h) - x = w + h + w + h by ring]
        exact div_self (by linarith),
      show (y - y) / (w + h + w + h) = (0:ℚ) by rw [sub_self, zero_div]] at hpL
    rw [hp1, hp2, hp3, hp4, hpL]
    exact four_segment_boundaries dash scale offset hpos hne hs ho w h hw hh
      f1 f2 f3 f4 fL hc1 hc2 hc3 hc4 hcL

end DashedLine

namespace DashedLine

/-- C1 witness: pattern `[10,5]`, scale 1, offset 0, rectangle `3 × 2` at
the origin, all fuels 20. -/
theorem C1_witness :
    ((∀ d ∈ [(10 : ℚ), 5], 0 < d)
      ∧ (stridesAt (mkVecCfg [10, 5] 1 0) 20 0 3).2 = true
      ∧ (stridesAt (mkVecCfg [10, 5] 1 0) 20 3 2).2 = true
      ∧ (stridesAt (mkVecCfg [10, 5] 1 0) 20 (3 + 2) 3).2 = true
      ∧ (stridesAt (mkVecCfg [10, 5] 1 0) 20 (3 + 2 + 3) 2).2 = true
      ∧ (stridesAt (mkVecCfg [10, 5] 1 0) 20 0 (3 + 2 + 3 + 2)).2 = true)
    ∧ (lineToM (mkVecCfg [10, 5] 1 0) 20 (lineToM (mkVecCfg [10, 5] 1 0) 20 (lineToM (mkVecCfg [10, 5] 1 0) 20 (lineToM (mkVecCfg [10, 5] 1 0) 20 (moveToM 0 0).1 (0 + 3) 0 false).1 (0 + 3) (0 + 2) false).1 0 (0 + 2) false).1 0 0 false).1.lineLength = 3 + 2 + 3 + 2
    ∧ mergeAdj (((lineToM (mkVecCfg [10, 5] 1 0) 20 (moveToM 0 0).1 (0 + 3) 0 false).2.map (distAlong 0 0 1 0 0))
        ++ ((lineToM (mkVecCfg [10, 5] 1 0) 20 (lineToM (mkVecCfg [10, 5] 1 0) 20 (moveToM 0 0).1 (0 + 3) 0 false).1 (0 + 3) (0 + 2) false).2.map (distAlong (0 + 3) 0 0 1 3))
        ++ ((lineToM (mkVecCfg [10, 5] 1 0) 20 (lineToM (mkVecCfg [10, 5] 1 0) 20 (lineToM (mkVecCfg [10, 5] 1 0) 20 (moveToM 0 0).1 (0 + 3) 0 false).1 (0 + 3) (0 + 2) false).1 0 (0 + 2) false).2.map (distAlong (0 + 3) (0 + 2) (-1) 0 (3 + 2)))
        ++ ((lineToM (mkVecCfg [10, 5] 1 0) 20 (lineToM (mkVecCfg [10, 5] 1 0) 20 (lineToM (mkVecCfg [10, 5] 1 0) 20 (lineToM (mkVecCfg [10, 5] 1 0) 20 (moveToM 0 0).1 (0 + 3) 0 false).1 (0 + 3) (0 + 2) false).1 0 (0 + 2) false).1 0 0 false).2.map (distAlong 0 (0 + 2) 0 (-1) (3 + 2 + 3))))
      = mergeAdj ((lineToM (mkVecCfg [10, 5] 1 0) 20 (moveToM 0 0).1 (0 + (3 + 2 + 3 + 2)) 0 false).2.map (distAlong 0 0 1 0 0)) := by
  refine ⟨⟨by norm_num, by norm_num [stridesAt, strides1, locate, jsMod, jsTrunc, locateAux, getD, nextIdx, mkVecCfg], by norm_num [stridesAt, strides1, locate, jsMod, jsTrunc, locateAux, getD, nextIdx, mkVecCfg], by norm_num [stridesAt, strides1, locate, jsMod, jsTrunc, locateAux, getD, nextIdx, mkVecCfg], by norm_num [stridesAt, strides1, locate, jsMod, jsTrunc, locateAux, getD, nextIdx, mkVecCfg], by norm_num [stridesAt, strides1, locate, jsMod, jsTrunc, locateAux, getD, nextIdx, mkVecCfg]⟩, ?_⟩
  exact C1_phase_continuity [10, 5] 1 0 0 0 3 2 20 20 20 20 20
    (by norm_num) (List.cons_ne_nil _ _) (by norm_num) (by norm_num)
    (by norm_num) (by norm_num)
    (by norm_num [stridesAt, strides1, locate, jsMod, jsTrunc, locateAux, getD, nextIdx, mkVecCfg]) (by norm_num [stridesAt, strides1, locate, jsMod, jsTrunc, locateAux, getD, nextIdx, mkVecCfg]) (by norm_num [stridesAt, strides1, locate, jsMod, jsTrunc, locateAux, getD, nextIdx, mkVecCfg]) (by norm_num [stridesAt, strides1, locate, jsMod, jsTrunc, locateAux, getD, nextIdx, mkVecCfg]) (by norm_num [stridesAt, strides1, locate, jsMod, jsTrunc, locateAux, getD, nextIdx, mkVecCfg])

end DashedLine
